import Mathlib

/-!
# The fragment shader of `trace.c`

A shallow embedding of the GLSL fragment shader held in `shaderSource`
(`src/trace.c`, lines 15-113): `castRay`, `accumulate_color` and the shader's
`main`, together with the per-frame sphere update of the host loop (lines
197-208).

GLSL `float` is modelled by an arbitrary linearly ordered field `F` with a
floor function (so `ceil` and `fract` are available); the exact-real reading
of the shader is the instance `F = ℝ`.  The GLSL built-ins that are not field
operations are parameters of the embedding: `sqrt` is passed explicitly
(theorems about exact real arithmetic instantiate it with `Real.sqrt`), the
remaining ones (`tan`, `radians`, `atan`, `pow`) are collected in `Builtins`.
-/

namespace Trace

/-! ## Vectors -/

/-- GLSL `vec2`. -/
@[ext]
structure Vec2 (F : Type) where
  x : F
  y : F
deriving DecidableEq

/-- GLSL `vec3`. -/
@[ext]
structure Vec3 (F : Type) where
  x : F
  y : F
  z : F
deriving DecidableEq

/-- GLSL `vec4`.  For a sphere `xyz` is the centre and `w` the radius; for a
colour `xyz` is `rgb` and `w` is the alpha component `a`. -/
@[ext]
structure Vec4 (F : Type) where
  x : F
  y : F
  z : F
  w : F
deriving DecidableEq

section Defs

variable {F : Type} [LinearOrderedField F]

namespace Vec2

/-- GLSL `length` on `vec2`, with the square root passed in. -/
def length (sqrt : F → F) (v : Vec2 F) : F := sqrt (v.x * v.x + v.y * v.y)

end Vec2

namespace Vec3

/-- Componentwise sum `u + v`. -/
def add (u v : Vec3 F) : Vec3 F := ⟨u.x + v.x, u.y + v.y, u.z + v.z⟩

/-- Componentwise difference `u - v`. -/
def sub (u v : Vec3 F) : Vec3 F := ⟨u.x - v.x, u.y - v.y, u.z - v.z⟩

instance : Add (Vec3 F) := ⟨add⟩

instance : Sub (Vec3 F) := ⟨sub⟩

/-- Product `c * v` of a scalar and a vector. -/
def smul (c : F) (v : Vec3 F) : Vec3 F := ⟨c * v.x, c * v.y, c * v.z⟩

/-- Product `v * c` of a vector and a scalar. -/
def muls (v : Vec3 F) (c : F) : Vec3 F := ⟨v.x * c, v.y * c, v.z * c⟩

/-- Quotient `v / c` of a vector by a scalar. -/
def divs (v : Vec3 F) (c : F) : Vec3 F := ⟨v.x / c, v.y / c, v.z / c⟩

/-- GLSL `dot`. -/
def dot (u v : Vec3 F) : F := u.x * v.x + u.y * v.y + u.z * v.z

/-- GLSL `length`, with the square root passed in. -/
def length (sqrt : F → F) (v : Vec3 F) : F := sqrt (dot v v)

/-- GLSL `normalize`: `v / length(v)`. -/
def normalize (sqrt : F → F) (v : Vec3 F) : Vec3 F := divs v (length sqrt v)

/-- GLSL `reflect(I, N) = I - 2 * dot(N, I) * N`. -/
def reflect (i n : Vec3 F) : Vec3 F := i - smul (2 * dot n i) n

/-- GLSL `mix(x, y, a) = x * (1 - a) + y * a` with a scalar weight. -/
def mix (u v : Vec3 F) (a : F) : Vec3 F := muls u (1 - a) + muls v a

end Vec3

namespace Vec4

/-- Swizzle `.xyz` (also `.rgb`). -/
def xyz (v : Vec4 F) : Vec3 F := ⟨v.x, v.y, v.z⟩

/-- Constructor `vec4(vec3, float)`. -/
def ofVec3 (v : Vec3 F) (w : F) : Vec4 F := ⟨v.x, v.y, v.z, w⟩

/-- Constructor `vec4(c)`: all four components equal to `c`. -/
def splat (c : F) : Vec4 F := ⟨c, c, c, c⟩

/-- GLSL `mix(x, y, a) = x * (1 - a) + y * a` on `vec4` with a scalar weight. -/
def mix (u v : Vec4 F) (a : F) : Vec4 F :=
  ⟨u.x * (1 - a) + v.x * a, u.y * (1 - a) + v.y * a,
   u.z * (1 - a) + v.z * a, u.w * (1 - a) + v.w * a⟩

end Vec4

/-! ## Scene constants -/

/-- `#define SPHERE_COUNT 5`. -/
abbrev SPHERE_COUNT : Nat := 5

/-- The uniform `vec4[SPHERE_COUNT] spheres`. -/
abbrev Spheres (F : Type) : Type := Fin SPHERE_COUNT → Vec4 F

/-- `const vec3 lightDirection = normalize(vec3(2, 4, 1))`. -/
def lightDirection (sqrt : F → F) : Vec3 F := Vec3.normalize sqrt ⟨2, 4, 1⟩

/-! ## `castRay` -/

/-- The three `out` parameters of `castRay`. -/
structure CastResult (F : Type) where
  color : Vec4 F
  next_point : Vec3 F
  next_direction : Vec3 F

/-- The local `center_dot_dir` of the scan loop for one sphere `s`. -/
def center_dot_dir (s : Vec4 F) (point direction : Vec3 F) : F :=
  Vec3.dot (s.xyz - point) direction

/-- The local `discriminant` of the scan loop for one sphere `s`. -/
def discriminant (s : Vec4 F) (point direction : Vec3 F) : F :=
  center_dot_dir s point direction * center_dot_dir s point direction + s.w * s.w
    - Vec3.dot (s.xyz - point) (s.xyz - point)

/-- The local `this_dist` of the scan loop for one sphere `s`. -/
def this_dist (sqrt : F → F) (s : Vec4 F) (point direction : Vec3 F) : F :=
  center_dot_dir s point direction - sqrt (discriminant s point direction)

/-- The two guards of the scan loop that do not depend on the running minimum
(lines 37 and 39): `discriminant >= 0` and `this_dist > 0`. -/
def qualifies (sqrt : F → F) (s : Vec4 F) (point direction : Vec3 F) : Prop :=
  discriminant s point direction ≥ 0 ∧ this_dist sqrt s point direction > 0

instance (sqrt : F → F) (s : Vec4 F) (point direction : Vec3 F) :
    Decidable (qualifies sqrt s point direction) := by
  unfold qualifies; infer_instance

/-- One iteration of the scan loop of `castRay` (lines 32-43) on the pair
`(distance, index)`. -/
def scanStep (sqrt : F → F) (spheres : Spheres F) (point direction : Vec3 F)
    (st : F × Fin SPHERE_COUNT) (i : Fin SPHERE_COUNT) : F × Fin SPHERE_COUNT :=
  if discriminant (spheres i) point direction ≥ 0 then
    if this_dist sqrt (spheres i) point direction > 0
        ∧ (st.1 = 0 ∨ this_dist sqrt (spheres i) point direction < st.1) then
      (this_dist sqrt (spheres i) point direction, i)
    else st
  else st

/-- The scan loop run over a list of indices from a given `(distance, index)`. -/
def scanFrom (sqrt : F → F) (spheres : Spheres F) (point direction : Vec3 F)
    (st : F × Fin SPHERE_COUNT) (l : List (Fin SPHERE_COUNT)) : F × Fin SPHERE_COUNT :=
  l.foldl (scanStep sqrt spheres point direction) st

/-- The whole scan loop of `castRay` (lines 29-44): `distance = 0`, `index = 0`,
then `i = 0, ..., SPHERE_COUNT - 1`. -/
def scan (sqrt : F → F) (spheres : Spheres F) (point direction : Vec3 F) :
    F × Fin SPHERE_COUNT :=
  scanFrom sqrt spheres point direction (0, 0) (List.finRange SPHERE_COUNT)

/-- The point `p` lies on the surface of the sphere `s`: its distance from the
centre is the radius. -/
def onSurface (sqrt : F → F) (s : Vec4 F) (p : Vec3 F) : Prop :=
  Vec3.length sqrt (p - s.xyz) = s.w

/-- The local `normal` of `castRay` (line 47) for the sphere `s` that was hit. -/
def hitNormal (s : Vec4 F) (next_point : Vec3 F) : Vec3 F :=
  Vec3.divs (next_point - s.xyz) s.w

/-- The shader function `castRay` (lines 25-61). -/
def castRay (sqrt : F → F) (spheres : Spheres F) (point direction : Vec3 F) :
    CastResult F :=
  let distance := (scan sqrt spheres point direction).1
  let index := (scan sqrt spheres point direction).2
  if distance > 0 then
    let next_point := point + Vec3.smul distance direction
    let normal := hitNormal (spheres index) next_point
    { color :=
        Vec4.ofVec3
          (Vec3.muls ⟨0.8, 0.5, 0.9⟩ (max 0 (Vec3.dot normal (lightDirection sqrt))))
          0.85
      next_point := next_point
      next_direction :=
        Vec3.reflect direction (Vec3.normalize sqrt (next_point - (spheres index).xyz)) }
  else
    { color := Vec4.splat 0
      next_point := point
      next_direction := direction }

/-! ## `accumulate_color` -/

/-- The shader function `accumulate_color` (lines 63-68); the result is the new
value of the `inout` parameter `color`. -/
def accumulate_color (new_color color : Vec4 F) : Vec4 F :=
  Vec4.ofVec3
    (Vec3.mix color.xyz new_color.xyz ((1 - color.w) / (color.w + new_color.w)))
    (color.w + (1 - color.w) * new_color.w)

/-! ## The shader's `main` -/

/-- The GLSL built-in functions used by `main` that are not field operations
(`sqrt` is passed separately). -/
structure Builtins (F : Type) where
  tan : F → F
  radians : F → F
  atan : F → F → F
  pow : F → F → F

/-- The constant `M_PI` of `math.h`, as it is expanded into the shader text. -/
def M_PI : F := 3.14159265358979323846

/-- `const vec2 size = vec2(640, 480)`. -/
def size : Vec2 F := ⟨640, 480⟩

/-- `const float fov = 75`. -/
def fov : F := 75

/-- `const vec2 slope = tan(radians(fov/2)) * vec2(1, size.y/size.x)`. -/
def slope (m : Builtins F) : Vec2 F :=
  ⟨m.tan (m.radians (fov / 2)) * 1, m.tan (m.radians (fov / 2)) * (size.y / size.x)⟩

/-- The primary ray direction (lines 71-72):
`normalize(vec3((2*gl_FragCoord.xy/size-1) * slope, -1))`. -/
def primaryDirection (sqrt : F → F) (m : Builtins F) (fragCoord : Vec2 F) : Vec3 F :=
  Vec3.normalize sqrt
    ⟨(2 * fragCoord.x / size.x - 1) * (slope m).x,
     (2 * fragCoord.y / size.y - 1) * (slope m).y, -1⟩

/-- The state of `main` during the bounce loop, with two logs added: `casts`
records the result of every `castRay` evaluation and `calls` the arguments
`(new_color, color)` of every `accumulate_color` call, both in program order. -/
structure MainState (F : Type) where
  gl_FragColor : Vec4 F
  point : Vec3 F
  direction : Vec3 F
  casts : List (CastResult F)
  calls : List (Vec4 F × Vec4 F)

/-- The bounce loop of `main` (lines 77-84) with `n` iterations left. -/
def bounceLoop (sqrt : F → F) (spheres : Spheres F) : Nat → MainState F → MainState F
  | 0, s => s
  | n + 1, s =>
    let r := castRay sqrt spheres s.point s.direction
    if r.color.w = 0 then
      { s with casts := s.casts ++ [r] }
    else
      bounceLoop sqrt spheres n
        { gl_FragColor := accumulate_color r.color s.gl_FragColor
          point := r.next_point
          direction := r.next_direction
          casts := s.casts ++ [r]
          calls := s.calls ++ [(r.color, s.gl_FragColor)] }

/-- The state of `main` when the bounce loop is entered (lines 71-76). -/
def initState (sqrt : F → F) (m : Builtins F) (fragCoord : Vec2 F) : MainState F :=
  { gl_FragColor := Vec4.splat 0
    point := ⟨0, 0, 0⟩
    direction := primaryDirection sqrt m fragCoord
    casts := []
    calls := [] }

/-- The sky colour (line 87): `vec4(vec3(.5, .9, 1) * (1-direction.y), 1)`. -/
def skyColor (direction : Vec3 F) : Vec4 F :=
  Vec4.ofVec3 (Vec3.muls ⟨0.5, 0.9, 1⟩ (1 - direction.y)) 1

/-- The local `floorCoords` (lines 90-91):
`direction.xz*(point.y+1)/(-direction.y)+point.xz + vec2(0,5)`. -/
def floorCoords (point direction : Vec3 F) : Vec2 F :=
  ⟨direction.x * (point.y + 1) / (-direction.y) + point.x + 0,
   direction.z * (point.y + 1) / (-direction.y) + point.z + 5⟩

/-- The floor point of the shadow test (line 101):
`vec3(floorCoords-vec2(0,5), -1).xzy`. -/
def floorPoint (fc : Vec2 F) : Vec3 F := ⟨fc.x - 0, -1, fc.y - 5⟩

/-- The shadow test of one sphere (lines 101-105). -/
def shadowTest (sqrt : F → F) (s : Vec4 F) (fc : Vec2 F) : Prop :=
  Vec3.length sqrt
      ((s.xyz - floorPoint fc)
        - Vec3.smul (Vec3.dot (s.xyz - floorPoint fc) (lightDirection sqrt))
            (lightDirection sqrt))
    < s.w

instance (sqrt : F → F) (s : Vec4 F) (fc : Vec2 F) : Decidable (shadowTest sqrt s fc) := by
  unfold shadowTest; infer_instance

/-- The shadow loop (lines 100-109) over the remaining sphere indices. -/
def shadowLoop (sqrt : F → F) (spheres : Spheres F) (fc : Vec2 F) (color : Vec4 F) :
    List (Fin SPHERE_COUNT) → Vec4 F
  | [] => color
  | i :: l =>
    if shadowTest sqrt (spheres i) fc then Vec4.ofVec3 (Vec3.muls color.xyz 0.2) color.w
    else shadowLoop sqrt spheres fc color l

/-- The running colour after compositing the colours `news`, in order, onto
`color` with `accumulate_color`. -/
def compositeAll (news : List (Vec4 F)) (color : Vec4 F) : Vec4 F :=
  news.foldl (fun c n => accumulate_color n c) color

/-- The ray `(point, direction)` reached from the ray `(point, direction)` after
following `k` continuation rays of `castRay`. -/
def nthRay (sqrt : F → F) (spheres : Spheres F) (point direction : Vec3 F) :
    Nat → Vec3 F × Vec3 F
  | 0 => (point, direction)
  | k + 1 =>
    ((castRay sqrt spheres (nthRay sqrt spheres point direction k).1
        (nthRay sqrt spheres point direction k).2).next_point,
     (castRay sqrt spheres (nthRay sqrt spheres point direction k).1
        (nthRay sqrt spheres point direction k).2).next_direction)

/-- The `castRay` evaluation of the ray number `k` (counted from `0`) of the
chain that starts at `(point, direction)`. -/
def nthCast (sqrt : F → F) (spheres : Spheres F) (point direction : Vec3 F) (k : Nat) :
    CastResult F :=
  castRay sqrt spheres (nthRay sqrt spheres point direction k).1
    (nthRay sqrt spheres point direction k).2

/-! ## The per-frame sphere update of the host program -/

/-- The local `time` of the host loop (line 197):
`(SDL_GetTicks() % 5000) / 5000.f`, for the clock value `ticks`. -/
def frameTime (ticks : Nat) : F := ((ticks % 5000 : Nat) : F) / 5000

/-- The array `spheres` filled by the host loop for one frame (lines 199-208),
entry `i` being `(spheres[4*i], spheres[4*i+1], spheres[4*i+2], spheres[4*i+3])`;
`sinf` and `expf` are passed in. -/
def frameSpheres (sinf expf : F → F) (ticks : Nat) : Spheres F := fun i =>
  ⟨3 * sinf (2 * M_PI * (frameTime ticks + ((i : Nat) : F) / 5)),
   0.5 + 0.5 * sinf (2 * M_PI * (frameTime ticks + ((i : Nat) : F) / 5 - 0.3)),
   -4 + 2 * sinf (4 * M_PI * (frameTime ticks + ((i : Nat) : F) / 5)),
   0.2 + 0.8 * expf (-((i : Nat) : F) / 5)⟩

/-! ## Loop invariants -/

/-- What holds of the running alpha throughout the bounce loop: after the calls
logged so far it is `1 - 0.15^n` for `n` the number of calls, call number `j`
found the running alpha `1 - 0.15^j`, and every new alpha was `0.85`. -/
def AlphaInv (s : MainState F) : Prop :=
  s.gl_FragColor.w = 1 - 0.15 ^ s.calls.length ∧
  ∀ (j : Nat) (c : Vec4 F × Vec4 F), s.calls[j]? = some c →
    c.2.w = 1 - 0.15 ^ j ∧ c.1.w = 0.85

/-- What holds of the directions throughout the bounce loop: the current
direction has length `1` and every logged evaluation of `castRay` was made on a
direction of length `1`. -/
def DirInv (sqrt : F → F) (spheres : Spheres F) (s : MainState F) : Prop :=
  Vec3.length sqrt s.direction = 1 ∧
  ∀ c ∈ s.casts, ∃ p d, Vec3.length sqrt d = 1 ∧ c = castRay sqrt spheres p d


/-- What the pair `(distance, index)` is after the scan loop has visited the
indices `l`: either nothing qualified and `distance` is still `0`, or `index`
is a qualifying sphere of `l` at distance `distance`, no qualifying sphere of
`l` is nearer, and every qualifying sphere of `l` with a lower index is
strictly farther. -/
def ScanInv (sqrt : F → F) (spheres : Spheres F) (point direction : Vec3 F)
    (l : List (Fin SPHERE_COUNT)) (st : F × Fin SPHERE_COUNT) : Prop :=
  (st.1 = 0 ∧ ∀ j ∈ l, ¬ qualifies sqrt (spheres j) point direction) ∨
  (0 < st.1 ∧ st.2 ∈ l ∧ qualifies sqrt (spheres st.2) point direction ∧
    this_dist sqrt (spheres st.2) point direction = st.1 ∧
    ∀ j ∈ l, qualifies sqrt (spheres j) point direction →
      st.1 ≤ this_dist sqrt (spheres j) point direction ∧
      (j < st.2 → st.1 < this_dist sqrt (spheres j) point direction))

/-- What holds of the state of `main` throughout the bounce loop: the running
alpha is in `[0,1]`, the running colour is the composite of the colours handed to
`accumulate_color` so far, and each call so far had a new alpha of `0.85` and a
running alpha in `[0,1]`. -/
def LoopInv (s : MainState F) : Prop :=
  0 ≤ s.gl_FragColor.w ∧ s.gl_FragColor.w ≤ 1 ∧
  s.gl_FragColor = compositeAll (s.calls.map Prod.fst) (Vec4.splat 0) ∧
  ∀ c ∈ s.calls, c.1.w = 0.85 ∧ 0 ≤ c.2.w ∧ c.2.w ≤ 1

variable [FloorRing F]

/-- GLSL `ceil`. -/
def ceil (x : F) : F := (⌈x⌉ : F)

/-- GLSL `fract`: `x - floor(x)`. -/
def fract (x : F) : F := x - (⌊x⌋ : F)

/-- The weight of the floor pattern (line 98) at `floorCoords = fc`. -/
def patternValue (sqrt : F → F) (m : Builtins F) (fc : Vec2 F) : F :=
  let r := Vec2.length sqrt fc
  let r_f := fract r
  let angle := m.atan fc.y fc.x + M_PI
  let angle_f := fract (ceil (2 * M_PI * ceil r) * angle / (2 * M_PI))
  0.5 + (m.pow (16 * r_f * (1 - r_f) * angle_f * (1 - angle_f)) 0.3 - 0.5) * 10 / (10 + r)

/-- The floor pattern colour before the shadow loop (lines 96-99). -/
def patternColor (sqrt : F → F) (m : Builtins F) (fc : Vec2 F) : Vec4 F :=
  Vec4.mix ⟨0.2, 0.05, 0, 1⟩ ⟨0.8, 0.2, 0.15, 1⟩ (patternValue sqrt m fc)

/-- The background colour `color` computed by lines 85-110 of `main` from the
final `point` and `direction`. -/
def background (sqrt : F → F) (m : Builtins F) (spheres : Spheres F)
    (point direction : Vec3 F) : Vec4 F :=
  if direction.y ≥ 0 then skyColor direction
  else
    shadowLoop sqrt spheres (floorCoords point direction)
      (patternColor sqrt m (floorCoords point direction)) (List.finRange SPHERE_COUNT)

/-- The shader's `main` (lines 70-112) for the fragment coordinate
`gl_FragCoord.xy = fragCoord`; the field `gl_FragColor` of the result is the
fragment colour. -/
def main (sqrt : F → F) (m : Builtins F) (spheres : Spheres F) (fragCoord : Vec2 F) :
    MainState F :=
  let s := bounceLoop sqrt spheres 5 (initState sqrt m fragCoord)
  let color := background sqrt m spheres s.point s.direction
  { s with
    gl_FragColor := accumulate_color color s.gl_FragColor
    calls := s.calls ++ [(color, s.gl_FragColor)] }

end Defs

/-! ## The scan loop of `castRay` -/

section Scan

variable {F : Type} [LinearOrderedField F]

theorem scanFrom_append (sqrt : F → F) (spheres : Spheres F) (point direction : Vec3 F)
    (st : F × Fin SPHERE_COUNT) (l : List (Fin SPHERE_COUNT)) (i : Fin SPHERE_COUNT) :
    scanFrom sqrt spheres point direction st (l ++ [i])
      = scanStep sqrt spheres point direction
          (scanFrom sqrt spheres point direction st l) i := by
  simp [scanFrom, List.foldl_append]

theorem scanStep_inv (sqrt : F → F) (spheres : Spheres F) (point direction : Vec3 F)
    (l : List (Fin SPHERE_COUNT)) (i : Fin SPHERE_COUNT) (hi : ∀ j ∈ l, j < i)
    (st : F × Fin SPHERE_COUNT) (h : ScanInv sqrt spheres point direction l st) :
    ScanInv sqrt spheres point direction (l ++ [i])
      (scanStep sqrt spheres point direction st i) := by
  unfold scanStep
  by_cases hD : discriminant (spheres i) point direction ≥ 0
  · by_cases ht : this_dist sqrt (spheres i) point direction > 0
        ∧ (st.1 = 0 ∨ this_dist sqrt (spheres i) point direction < st.1)
    · rw [if_pos hD, if_pos ht]
      right
      refine ⟨ht.1, by simp, ⟨hD, ht.1⟩, rfl, ?_⟩
      intro j hj hq
      rcases List.mem_append.1 hj with hjl | hji
      · rcases h with ⟨_, hnone⟩ | ⟨hpos, _, _, _, hmin⟩
        · exact absurd hq (hnone j hjl)
        · have hlt : this_dist sqrt (spheres i) point direction < st.1 := by
            rcases ht.2 with h0 | hlt
            · exact absurd h0 (ne_of_gt hpos)
            · exact hlt
          have := (hmin j hjl hq).1
          exact ⟨le_of_lt (lt_of_lt_of_le hlt this), fun _ => lt_of_lt_of_le hlt this⟩
      · have hji' : j = i := by simpa using hji
        subst hji'
        exact ⟨le_refl _, fun hlt => absurd hlt (lt_irrefl _)⟩
    · rw [if_pos hD, if_neg ht]
      rcases h with ⟨h0, hnone⟩ | ⟨hpos, hmem, hq, heq, hmin⟩
      · left
        refine ⟨h0, ?_⟩
        intro j hj hqj
        rcases List.mem_append.1 hj with hjl | hji
        · exact hnone j hjl hqj
        · have hji' : j = i := by simpa using hji
          subst hji'
          exact ht ⟨hqj.2, Or.inl h0⟩
      · right
        refine ⟨hpos, List.mem_append_left _ hmem, hq, heq, ?_⟩
        intro j hj hqj
        rcases List.mem_append.1 hj with hjl | hji
        · exact hmin j hjl hqj
        · have hji' : j = i := by simpa using hji
          subst hji'
          have hge : st.1 ≤ this_dist sqrt (spheres j) point direction := by
            by_contra hcon
            exact ht ⟨hqj.2, Or.inr (lt_of_not_ge hcon)⟩
          exact ⟨hge, fun hlt => absurd (hi _ hmem) (not_lt_of_gt hlt)⟩
  · rw [if_neg hD]
    rcases h with ⟨h0, hnone⟩ | ⟨hpos, hmem, hq, heq, hmin⟩
    · left
      refine ⟨h0, ?_⟩
      intro j hj hqj
      rcases List.mem_append.1 hj with hjl | hji
      · exact hnone j hjl hqj
      · have hji' : j = i := by simpa using hji
        subst hji'
        exact hD hqj.1
    · right
      refine ⟨hpos, List.mem_append_left _ hmem, hq, heq, ?_⟩
      intro j hj hqj
      rcases List.mem_append.1 hj with hjl | hji
      · exact hmin j hjl hqj
      · have hji' : j = i := by simpa using hji
        subst hji'
        exact absurd hqj.1 hD

theorem scanFrom_inv (sqrt : F → F) (spheres : Spheres F) (point direction : Vec3 F)
    (l : List (Fin SPHERE_COUNT)) (hl : l.Pairwise (· < ·)) :
    ScanInv sqrt spheres point direction l
      (scanFrom sqrt spheres point direction (0, 0) l) := by
  induction l using List.reverseRecOn with
  | nil => left; simp [scanFrom]
  | append_singleton l i ih =>
    rw [scanFrom_append]
    rw [List.pairwise_append] at hl
    refine scanStep_inv sqrt spheres point direction l i ?_ _ (ih hl.1)
    intro j hj
    exact hl.2.2 j hj i (by simp)

theorem scan_inv (sqrt : F → F) (spheres : Spheres F) (point direction : Vec3 F) :
    ScanInv sqrt spheres point direction (List.finRange SPHERE_COUNT)
      (scan sqrt spheres point direction) :=
  scanFrom_inv sqrt spheres point direction _ (List.pairwise_lt_finRange _)

theorem scan_pos_iff (sqrt : F → F) (spheres : Spheres F) (point direction : Vec3 F) :
    0 < (scan sqrt spheres point direction).1
      ↔ ∃ i, qualifies sqrt (spheres i) point direction := by
  rcases scan_inv sqrt spheres point direction with ⟨h0, hnone⟩ | ⟨hpos, _, hq, _, _⟩
  · constructor
    · intro h; rw [h0] at h; exact absurd h (lt_irrefl _)
    · rintro ⟨i, hi⟩; exact absurd hi (hnone i (List.mem_finRange i))
  · exact ⟨fun _ => ⟨_, hq⟩, fun _ => hpos⟩

theorem scan_of_qualifies (sqrt : F → F) (spheres : Spheres F) (point direction : Vec3 F)
    (h : ∃ i, qualifies sqrt (spheres i) point direction) :
    0 < (scan sqrt spheres point direction).1 ∧
    qualifies sqrt (spheres (scan sqrt spheres point direction).2) point direction ∧
    this_dist sqrt (spheres (scan sqrt spheres point direction).2) point direction
      = (scan sqrt spheres point direction).1 ∧
    ∀ j, qualifies sqrt (spheres j) point direction →
      (scan sqrt spheres point direction).1 ≤ this_dist sqrt (spheres j) point direction ∧
      (j < (scan sqrt spheres point direction).2 →
        (scan sqrt spheres point direction).1
          < this_dist sqrt (spheres j) point direction) := by
  rcases scan_inv sqrt spheres point direction with ⟨_, hnone⟩ | ⟨hpos, _, hq, heq, hmin⟩
  · obtain ⟨i, hi⟩ := h
    exact absurd hi (hnone i (List.mem_finRange i))
  · exact ⟨hpos, hq, heq, fun j hj => hmin j (List.mem_finRange j) hj⟩

theorem castRay_of_pos (sqrt : F → F) (spheres : Spheres F) (point direction : Vec3 F)
    (h : 0 < (scan sqrt spheres point direction).1) :
    castRay sqrt spheres point direction =
      { color :=
          Vec4.ofVec3
            (Vec3.muls ⟨0.8, 0.5, 0.9⟩
              (max 0 (Vec3.dot
                (hitNormal (spheres (scan sqrt spheres point direction).2)
                  (point + Vec3.smul (scan sqrt spheres point direction).1 direction))
                (lightDirection sqrt))))
            0.85
        next_point := point + Vec3.smul (scan sqrt spheres point direction).1 direction
        next_direction :=
          Vec3.reflect direction
            (Vec3.normalize sqrt
              (point + Vec3.smul (scan sqrt spheres point direction).1 direction
                - (spheres (scan sqrt spheres point direction).2).xyz)) } := by
  unfold castRay
  simp only [gt_iff_lt]
  rw [if_pos h]

theorem castRay_of_not_pos (sqrt : F → F) (spheres : Spheres F) (point direction : Vec3 F)
    (h : ¬ 0 < (scan sqrt spheres point direction).1) :
    castRay sqrt spheres point direction =
      { color := Vec4.splat 0, next_point := point, next_direction := direction } := by
  unfold castRay
  simp only [gt_iff_lt]
  rw [if_neg h]

theorem alpha_hit_ne_zero : (0.85 : F) ≠ 0 := by norm_num

theorem castRay_alpha_ne_zero_iff (sqrt : F → F) (spheres : Spheres F)
    (point direction : Vec3 F) :
    (castRay sqrt spheres point direction).color.w ≠ 0
      ↔ 0 < (scan sqrt spheres point direction).1 := by
  by_cases h : 0 < (scan sqrt spheres point direction).1
  · rw [castRay_of_pos sqrt spheres point direction h]
    simp only [Vec4.ofVec3]
    exact ⟨fun _ => h, fun _ => alpha_hit_ne_zero⟩
  · rw [castRay_of_not_pos sqrt spheres point direction h]
    simp [Vec4.splat, h]

end Scan

/-! ## Ray and sphere geometry over the reals -/

section Geometry

variable {F : Type} [LinearOrderedField F]

@[simp]
theorem Vec3.add_x (u v : Vec3 F) : (u + v).x = u.x + v.x := rfl

@[simp]
theorem Vec3.add_y (u v : Vec3 F) : (u + v).y = u.y + v.y := rfl

@[simp]
theorem Vec3.add_z (u v : Vec3 F) : (u + v).z = u.z + v.z := rfl

@[simp]
theorem Vec3.sub_x (u v : Vec3 F) : (u - v).x = u.x - v.x := rfl

@[simp]
theorem Vec3.sub_y (u v : Vec3 F) : (u - v).y = u.y - v.y := rfl

@[simp]
theorem Vec3.sub_z (u v : Vec3 F) : (u - v).z = u.z - v.z := rfl

theorem Vec3.dot_self_nonneg (v : Vec3 F) : 0 ≤ Vec3.dot v v := by
  unfold Vec3.dot
  nlinarith [mul_self_nonneg v.x, mul_self_nonneg v.y, mul_self_nonneg v.z]

/-- Squared distance from the centre of `s` of the point at parameter `t` of the
ray, when the direction is a unit vector. -/
theorem dot_along_ray (s : Vec4 F) (point direction : Vec3 F)
    (hd : Vec3.dot direction direction = 1) (t : F) :
    Vec3.dot (point + Vec3.smul t direction - s.xyz)
        (point + Vec3.smul t direction - s.xyz)
      = (t - center_dot_dir s point direction) ^ 2
          - discriminant s point direction + s.w * s.w := by
  simp only [discriminant, center_dot_dir, Vec3.dot, Vec3.smul, Vec4.xyz, Vec3.add_x,
    Vec3.add_y, Vec3.add_z, Vec3.sub_x, Vec3.sub_y, Vec3.sub_z] at hd ⊢
  linear_combination (t ^ 2) * hd

theorem length_eq_iff (v : Vec3 ℝ) (r : ℝ) (hr : 0 < r) :
    Vec3.length Real.sqrt v = r ↔ Vec3.dot v v = r * r := by
  unfold Vec3.length
  rw [Real.sqrt_eq_iff_mul_self_eq_of_pos hr]
  exact eq_comm

theorem unit_iff (v : Vec3 ℝ) : Vec3.length Real.sqrt v = 1 ↔ Vec3.dot v v = 1 := by
  unfold Vec3.length
  exact Real.sqrt_eq_one

/-- On the ray with unit direction, the point at parameter `t` is on the sphere
`s` exactly when `(t - b)^2` is the discriminant. -/
theorem onSurface_iff (s : Vec4 ℝ) (point direction : Vec3 ℝ) (hr : 0 < s.w)
    (hd : Vec3.dot direction direction = 1) (t : ℝ) :
    onSurface Real.sqrt s (point + Vec3.smul t direction)
      ↔ (t - center_dot_dir s point direction) ^ 2 = discriminant s point direction := by
  unfold onSurface
  rw [length_eq_iff _ _ hr, dot_along_ray s point direction hd t]
  constructor <;> intro h <;> linarith

/-- The near root lies on the sphere. -/
theorem onSurface_this_dist (s : Vec4 ℝ) (point direction : Vec3 ℝ) (hr : 0 < s.w)
    (hd : Vec3.dot direction direction = 1) (hD : discriminant s point direction ≥ 0) :
    onSurface Real.sqrt s
      (point + Vec3.smul (this_dist Real.sqrt s point direction) direction) := by
  rw [onSurface_iff s point direction hr hd]
  unfold this_dist
  have := Real.sq_sqrt hD
  linear_combination this

/-- No point of the ray on the sphere comes before the near root. -/
theorem this_dist_le_of_onSurface (s : Vec4 ℝ) (point direction : Vec3 ℝ) (hr : 0 < s.w)
    (hd : Vec3.dot direction direction = 1) (t : ℝ)
    (h : onSurface Real.sqrt s (point + Vec3.smul t direction)) :
    this_dist Real.sqrt s point direction ≤ t := by
  rw [onSurface_iff s point direction hr hd] at h
  unfold this_dist
  rw [← h, Real.sqrt_sq_eq_abs]
  have := neg_abs_le (t - center_dot_dir s point direction)
  linarith

/-- For a ray that starts strictly outside the sphere, the sphere qualifies
exactly when the ray meets its surface at a positive parameter. -/
theorem qualifies_iff_forward (s : Vec4 ℝ) (point direction : Vec3 ℝ) (hr : 0 < s.w)
    (hd : Vec3.dot direction direction = 1)
    (hout : s.w < Vec3.length Real.sqrt (point - s.xyz)) :
    qualifies Real.sqrt s point direction
      ↔ ∃ t, 0 < t ∧ onSurface Real.sqrt s (point + Vec3.smul t direction) := by
  have hout2 : s.w * s.w < Vec3.dot (s.xyz - point) (s.xyz - point) := by
    have h1 : s.w ^ 2 < Vec3.dot (point - s.xyz) (point - s.xyz) :=
      (Real.lt_sqrt (le_of_lt hr)).1 hout
    have h2 : Vec3.dot (point - s.xyz) (point - s.xyz)
        = Vec3.dot (s.xyz - point) (s.xyz - point) := by
      simp only [Vec3.dot, Vec3.sub_x, Vec3.sub_y, Vec3.sub_z]; ring
    rw [← h2]; linarith [sq s.w]
  constructor
  · rintro ⟨hD, ht⟩
    exact ⟨_, ht, onSurface_this_dist s point direction hr hd hD⟩
  · rintro ⟨t, ht, hon⟩
    rw [onSurface_iff s point direction hr hd] at hon
    have hD : discriminant s point direction ≥ 0 := by
      rw [← hon]; exact sq_nonneg _
    refine ⟨hD, ?_⟩
    have hgap : discriminant s point direction
        < center_dot_dir s point direction ^ 2 := by
      unfold discriminant; linarith [sq (center_dot_dir s point direction)]
    have hb : 0 < center_dot_dir s point direction := by
      by_contra hb
      push_neg at hb
      nlinarith [mul_nonneg (le_of_lt ht) (neg_nonneg.2 hb), sq_nonneg t]
    unfold this_dist
    have := (Real.sqrt_lt' hb).2 hgap
    linarith

/-- On a hit with unit direction and positive radii the continuation point is
on the surface of the selected sphere. -/
theorem hit_onSurface (spheres : Spheres ℝ) (point direction : Vec3 ℝ)
    (hr : ∀ i, 0 < (spheres i).w) (hd : Vec3.dot direction direction = 1)
    (hpos : 0 < (scan Real.sqrt spheres point direction).1) :
    onSurface Real.sqrt (spheres (scan Real.sqrt spheres point direction).2)
      (point + Vec3.smul (scan Real.sqrt spheres point direction).1 direction) := by
  obtain ⟨_, hq, heq, _⟩ :=
    scan_of_qualifies Real.sqrt spheres point direction ((scan_pos_iff _ _ _ _).1 hpos)
  rw [← heq]
  exact onSurface_this_dist _ point direction (hr _) hd hq.1

theorem hitNormal_length (s : Vec4 ℝ) (p : Vec3 ℝ) (hr : 0 < s.w)
    (h : onSurface Real.sqrt s p) : Vec3.length Real.sqrt (hitNormal s p) = 1 := by
  unfold onSurface at h
  rw [length_eq_iff _ _ hr] at h
  rw [unit_iff]
  have hne : s.w ≠ 0 := ne_of_gt hr
  simp only [hitNormal, Vec3.divs, Vec3.dot, Vec3.sub_x, Vec3.sub_y, Vec3.sub_z] at h ⊢
  field_simp
  linarith

theorem normalize_eq_hitNormal (s : Vec4 ℝ) (p : Vec3 ℝ)
    (h : onSurface Real.sqrt s p) : Vec3.normalize Real.sqrt (p - s.xyz) = hitNormal s p := by
  unfold onSurface at h
  unfold Vec3.normalize hitNormal
  rw [h]

/-- The scenario of the spec: unit sphere at the origin, ray from `(0,0,5)`
towards `(0,0,-1)`. -/
theorem scenario_this_dist :
    qualifies Real.sqrt (⟨0, 0, 0, 1⟩ : Vec4 ℝ) ⟨0, 0, 5⟩ ⟨0, 0, -1⟩ ∧
    this_dist Real.sqrt (⟨0, 0, 0, 1⟩ : Vec4 ℝ) ⟨0, 0, 5⟩ ⟨0, 0, -1⟩ = 4 := by
  have hD : discriminant (⟨0, 0, 0, 1⟩ : Vec4 ℝ) ⟨0, 0, 5⟩ ⟨0, 0, -1⟩ = 1 := by
    norm_num [discriminant, center_dot_dir, Vec3.dot, Vec4.xyz]
  have ht : this_dist Real.sqrt (⟨0, 0, 0, 1⟩ : Vec4 ℝ) ⟨0, 0, 5⟩ ⟨0, 0, -1⟩ = 4 := by
    unfold this_dist
    rw [hD, Real.sqrt_one]
    norm_num [center_dot_dir, Vec3.dot, Vec4.xyz]
  refine ⟨⟨?_, ?_⟩, ht⟩
  · rw [hD]; norm_num
  · rw [ht]; norm_num

theorem reflect_reflect (d n : Vec3 F) (hn : Vec3.dot n n = 1) :
    Vec3.reflect (Vec3.reflect d n) n = d := by
  simp only [Vec3.dot] at hn
  ext
  · simp only [Vec3.reflect, Vec3.smul, Vec3.dot, Vec3.sub_x, Vec3.sub_y, Vec3.sub_z]
    linear_combination (4 * (n.x * d.x + n.y * d.y + n.z * d.z) * n.x) * hn
  · simp only [Vec3.reflect, Vec3.smul, Vec3.dot, Vec3.sub_x, Vec3.sub_y, Vec3.sub_z]
    linear_combination (4 * (n.x * d.x + n.y * d.y + n.z * d.z) * n.y) * hn
  · simp only [Vec3.reflect, Vec3.smul, Vec3.dot, Vec3.sub_x, Vec3.sub_y, Vec3.sub_z]
    linear_combination (4 * (n.x * d.x + n.y * d.y + n.z * d.z) * n.z) * hn

/-- In the scenario of the spec, with every sphere of the array either the unit
sphere at the origin or one that does not qualify, the scan selects a unit
sphere at the origin at distance `4`. -/
theorem scenario_scan (spheres : Spheres ℝ) (h1 : ∃ i, spheres i = ⟨0, 0, 0, 1⟩)
    (h2 : ∀ i, spheres i = ⟨0, 0, 0, 1⟩
      ∨ ¬ qualifies Real.sqrt (spheres i) ⟨0, 0, 5⟩ ⟨0, 0, -1⟩) :
    (scan Real.sqrt spheres ⟨0, 0, 5⟩ ⟨0, 0, -1⟩).1 = 4 ∧
    spheres (scan Real.sqrt spheres ⟨0, 0, 5⟩ ⟨0, 0, -1⟩).2 = ⟨0, 0, 0, 1⟩ := by
  have hex : ∃ i, qualifies Real.sqrt (spheres i) ⟨0, 0, 5⟩ ⟨0, 0, -1⟩ := by
    obtain ⟨i, hi⟩ := h1
    exact ⟨i, by rw [hi]; exact scenario_this_dist.1⟩
  obtain ⟨_, hq, heq, _⟩ := scan_of_qualifies Real.sqrt spheres _ _ hex
  have hk : spheres (scan Real.sqrt spheres ⟨0, 0, 5⟩ ⟨0, 0, -1⟩).2 = ⟨0, 0, 0, 1⟩ := by
    rcases h2 (scan Real.sqrt spheres ⟨0, 0, 5⟩ ⟨0, 0, -1⟩).2 with h | h
    · exact h
    · exact absurd hq h
  refine ⟨?_, hk⟩
  rw [← heq, hk]
  exact scenario_this_dist.2

end Geometry

/-! ## Compositing and the bounce loop -/

section Loop

variable {F : Type} [LinearOrderedField F]

theorem accumulate_alpha_bounds (new_color color : Vec4 F)
    (ha1 : color.w ≤ 1) (hb0 : 0 ≤ new_color.w) (hb1 : new_color.w ≤ 1) :
    color.w ≤ (accumulate_color new_color color).w ∧
    (accumulate_color new_color color).w ≤ 1 := by
  simp only [accumulate_color, Vec4.ofVec3]
  constructor
  · nlinarith [mul_nonneg (sub_nonneg.2 ha1) hb0]
  · nlinarith [mul_nonneg (sub_nonneg.2 ha1) (sub_nonneg.2 hb1)]

theorem compositeAll_append (news : List (Vec4 F)) (n color : Vec4 F) :
    compositeAll (news ++ [n]) color = accumulate_color n (compositeAll news color) := by
  simp [compositeAll, List.foldl_append]

theorem compositeAll_alpha_bounds (news : List (Vec4 F)) (color : Vec4 F)
    (h0 : 0 ≤ color.w) (h1 : color.w ≤ 1) (hn : ∀ n ∈ news, 0 ≤ n.w ∧ n.w ≤ 1) :
    0 ≤ (compositeAll news color).w ∧ (compositeAll news color).w ≤ 1 := by
  induction news using List.reverseRecOn with
  | nil => exact ⟨h0, h1⟩
  | append_singleton l n ih =>
    have ihl := ih (fun c hc => hn c (List.mem_append_left _ hc))
    have hnn := hn n (by simp)
    rw [compositeAll_append]
    have := accumulate_alpha_bounds n (compositeAll l color) ihl.2 hnn.1 hnn.2
    exact ⟨le_trans ihl.1 this.1, this.2⟩

theorem castRay_alpha_cases (sqrt : F → F) (spheres : Spheres F) (point direction : Vec3 F) :
    (castRay sqrt spheres point direction).color.w = 0 ∨
    (castRay sqrt spheres point direction).color.w = 0.85 := by
  by_cases h : 0 < (scan sqrt spheres point direction).1
  · right; rw [castRay_of_pos sqrt spheres point direction h]; rfl
  · left; rw [castRay_of_not_pos sqrt spheres point direction h]; rfl

theorem bounceLoop_escape (sqrt : F → F) (spheres : Spheres F) (n : Nat) (s : MainState F)
    (h : (castRay sqrt spheres s.point s.direction).color.w = 0) :
    bounceLoop sqrt spheres (n + 1) s
      = { s with casts := s.casts ++ [castRay sqrt spheres s.point s.direction] } := by
  simp only [bounceLoop]
  rw [if_pos h]

theorem bounceLoop_hit (sqrt : F → F) (spheres : Spheres F) (n : Nat) (s : MainState F)
    (h : (castRay sqrt spheres s.point s.direction).color.w ≠ 0) :
    bounceLoop sqrt spheres (n + 1) s
      = bounceLoop sqrt spheres n
          { gl_FragColor :=
              accumulate_color (castRay sqrt spheres s.point s.direction).color s.gl_FragColor
            point := (castRay sqrt spheres s.point s.direction).next_point
            direction := (castRay sqrt spheres s.point s.direction).next_direction
            casts := s.casts ++ [castRay sqrt spheres s.point s.direction]
            calls := s.calls
              ++ [((castRay sqrt spheres s.point s.direction).color, s.gl_FragColor)] } := by
  simp only [bounceLoop]
  rw [if_neg h]

theorem bounceLoop_inv (sqrt : F → F) (spheres : Spheres F) (n : Nat) :
    ∀ s : MainState F, LoopInv s → LoopInv (bounceLoop sqrt spheres n s) := by
  induction n with
  | zero => intro s h; exact h
  | succ n ih =>
    intro s h
    by_cases hhit : (castRay sqrt spheres s.point s.direction).color.w = 0
    · rw [bounceLoop_escape sqrt spheres n s hhit]
      exact h
    · rw [bounceLoop_hit sqrt spheres n s hhit]
      apply ih
      obtain ⟨h0, h1, hc, hcalls⟩ := h
      have hw : (castRay sqrt spheres s.point s.direction).color.w = 0.85 := by
        rcases castRay_alpha_cases sqrt spheres s.point s.direction with h | h
        · exact absurd h hhit
        · exact h
      have hb := accumulate_alpha_bounds (castRay sqrt spheres s.point s.direction).color
        s.gl_FragColor h1 (by rw [hw]; norm_num) (by rw [hw]; norm_num)
      refine ⟨le_trans h0 hb.1, hb.2, ?_, ?_⟩
      · simp only [List.map_append, List.map_cons, List.map_nil]
        rw [compositeAll_append, ← hc]
      · intro c hcm
        rcases List.mem_append.1 hcm with hcm | hcm
        · exact hcalls c hcm
        · have hceq : c = ((castRay sqrt spheres s.point s.direction).color, s.gl_FragColor) := by
            simpa using hcm
          subst hceq
          exact ⟨hw, h0, h1⟩

theorem initState_inv (sqrt : F → F) (m : Builtins F) (fragCoord : Vec2 F) :
    LoopInv (initState sqrt m fragCoord) := by
  refine ⟨le_refl _, zero_le_one, rfl, ?_⟩
  intro c hc
  simp [initState] at hc

theorem shadowLoop_alpha (sqrt : F → F) (spheres : Spheres F) (fc : Vec2 F) (color : Vec4 F)
    (l : List (Fin SPHERE_COUNT)) : (shadowLoop sqrt spheres fc color l).w = color.w := by
  induction l with
  | nil => rfl
  | cons i l ih =>
    simp only [shadowLoop]
    split
    · rfl
    · exact ih

theorem shadowLoop_none (sqrt : F → F) (spheres : Spheres F) (fc : Vec2 F) (color : Vec4 F)
    (l : List (Fin SPHERE_COUNT)) (h : ∀ i ∈ l, ¬ shadowTest sqrt (spheres i) fc) :
    shadowLoop sqrt spheres fc color l = color := by
  induction l with
  | nil => rfl
  | cons i l ih =>
    simp only [shadowLoop]
    rw [if_neg (h i (by simp))]
    exact ih (fun j hj => h j (List.mem_cons_of_mem _ hj))

theorem accumulate_onto_empty (color : Vec4 F) (h : color.w = 1) :
    accumulate_color color (Vec4.splat 0) = color := by
  ext <;> simp [accumulate_color, Vec4.ofVec3, Vec3.mix, Vec3.muls, Vec4.splat, Vec4.xyz, h]

theorem nthRay_shift (sqrt : F → F) (spheres : Spheres F) (point direction : Vec3 F)
    (k : Nat) :
    nthRay sqrt spheres point direction (k + 1)
      = nthRay sqrt spheres (castRay sqrt spheres point direction).next_point
          (castRay sqrt spheres point direction).next_direction k := by
  induction k with
  | zero => rfl
  | succ k ih =>
    rw [nthRay, ih]
    rfl

theorem nthCast_shift (sqrt : F → F) (spheres : Spheres F) (point direction : Vec3 F)
    (k : Nat) :
    nthCast sqrt spheres point direction (k + 1)
      = nthCast sqrt spheres (castRay sqrt spheres point direction).next_point
          (castRay sqrt spheres point direction).next_direction k := by
  unfold nthCast
  rw [nthRay_shift]

/-- The bounce loop with `n` iterations left, started in state `s`, when the
first `k` rays of the chain from `(s.point, s.direction)` hit and either `k = n`
or ray number `k` escapes: it evaluates `castRay` on the rays `0, ..., k` (on
`0, ..., n - 1` when `k = n`), composites the colours of the rays `0, ..., k - 1`
and leaves `point` and `direction` at ray number `k`. -/
theorem bounceLoop_trace (sqrt : F → F) (spheres : Spheres F) (n : Nat) :
    ∀ (s : MainState F) (k : Nat), k ≤ n →
      (∀ i, i < k → (nthCast sqrt spheres s.point s.direction i).color.w ≠ 0) →
      (k = n ∨ (nthCast sqrt spheres s.point s.direction k).color.w = 0) →
      (bounceLoop sqrt spheres n s).casts
          = s.casts ++ (List.range (min (k + 1) n)).map
              (nthCast sqrt spheres s.point s.direction) ∧
      (bounceLoop sqrt spheres n s).calls.map Prod.fst
          = s.calls.map Prod.fst ++ (List.range k).map
              (fun i => (nthCast sqrt spheres s.point s.direction i).color) ∧
      (bounceLoop sqrt spheres n s).gl_FragColor
          = compositeAll ((List.range k).map
              (fun i => (nthCast sqrt spheres s.point s.direction i).color)) s.gl_FragColor ∧
      ((bounceLoop sqrt spheres n s).point, (bounceLoop sqrt spheres n s).direction)
          = nthRay sqrt spheres s.point s.direction k := by
  induction n with
  | zero =>
    intro s k hk _ _
    have hk0 : k = 0 := Nat.le_zero.1 hk
    subst hk0
    simp [bounceLoop, compositeAll, nthRay]
  | succ n ih =>
    intro s k hk hhits hend
    cases k with
    | zero =>
      have hesc : (castRay sqrt spheres s.point s.direction).color.w = 0 := by
        rcases hend with h | h
        · exact absurd h (by omega)
        · exact h
      rw [bounceLoop_escape sqrt spheres n s hesc]
      simp [compositeAll, nthRay, nthCast, List.range_succ]
    | succ k =>
      have hhit : (castRay sqrt spheres s.point s.direction).color.w ≠ 0 :=
        hhits 0 (Nat.succ_pos k)
      rw [bounceLoop_hit sqrt spheres n s hhit]
      have hend2 : k = n ∨ (nthCast sqrt spheres
          (castRay sqrt spheres s.point s.direction).next_point
          (castRay sqrt spheres s.point s.direction).next_direction k).color.w = 0 := by
        rcases hend with h | h
        · left; omega
        · right; rw [← nthCast_shift]; exact h
      obtain ⟨h1, h2, h3, h4⟩ := ih
        { gl_FragColor :=
            accumulate_color (castRay sqrt spheres s.point s.direction).color s.gl_FragColor
          point := (castRay sqrt spheres s.point s.direction).next_point
          direction := (castRay sqrt spheres s.point s.direction).next_direction
          casts := s.casts ++ [castRay sqrt spheres s.point s.direction]
          calls := s.calls
            ++ [((castRay sqrt spheres s.point s.direction).color, s.gl_FragColor)] }
        k (Nat.le_of_succ_le_succ hk)
        (fun i hi => by
          simp only
          rw [← nthCast_shift]
          exact hhits (i + 1) (Nat.succ_lt_succ hi))
        hend2
      have hfun : (nthCast sqrt spheres (castRay sqrt spheres s.point s.direction).next_point
          (castRay sqrt spheres s.point s.direction).next_direction)
            = (nthCast sqrt spheres s.point s.direction) ∘ Nat.succ := by
        funext i
        exact (nthCast_shift sqrt spheres s.point s.direction i).symm
      have hfun2 : (fun i => (nthCast sqrt spheres
          (castRay sqrt spheres s.point s.direction).next_point
          (castRay sqrt spheres s.point s.direction).next_direction i).color)
            = (fun i => (nthCast sqrt spheres s.point s.direction i).color) ∘ Nat.succ := by
        funext i
        simp only [Function.comp]
        rw [← nthCast_shift]
      have hmin : min (k + 1 + 1) (n + 1) = min (k + 1) n + 1 := by omega
      have h0 : nthCast sqrt spheres s.point s.direction 0
          = castRay sqrt spheres s.point s.direction := rfl
      refine ⟨?_, ?_, ?_, ?_⟩
      · rw [h1, hmin, List.range_succ_eq_map, List.map_cons, List.map_map, hfun, h0]
        simp
      · rw [h2, List.range_succ_eq_map, List.map_cons, List.map_map, hfun2, h0]
        simp
      · rw [h3, List.range_succ_eq_map, List.map_cons, List.map_map, hfun2, h0]
        rfl
      · rw [h4, nthRay_shift]

theorem bounceLoop_casts_length (sqrt : F → F) (spheres : Spheres F) (n : Nat) :
    ∀ s : MainState F,
      (bounceLoop sqrt spheres n s).casts.length ≤ s.casts.length + n := by
  induction n with
  | zero => intro s; simp [bounceLoop]
  | succ n ih =>
    intro s
    by_cases hhit : (castRay sqrt spheres s.point s.direction).color.w = 0
    · rw [bounceLoop_escape sqrt spheres n s hhit]
      simp only [List.length_append, List.length_singleton]
      omega
    · rw [bounceLoop_hit sqrt spheres n s hhit]
      refine le_trans (ih _) ?_
      simp only [List.length_append, List.length_singleton]
      omega

theorem compositeAll_take_succ (news : List (Vec4 F))
    (hn : ∀ n ∈ news, 0 ≤ n.w ∧ n.w ≤ 1) (k : Nat) :
    (compositeAll (news.take k) (Vec4.splat 0)).w
        ≤ (compositeAll (news.take (k + 1)) (Vec4.splat 0)).w ∧
    (compositeAll (news.take (k + 1)) (Vec4.splat 0)).w ≤ 1 := by
  have hpre : ∀ j, 0 ≤ (compositeAll (news.take j) (Vec4.splat 0)).w ∧
      (compositeAll (news.take j) (Vec4.splat 0)).w ≤ 1 := fun j =>
    compositeAll_alpha_bounds (news.take j) (Vec4.splat 0) (le_refl _) zero_le_one
      (fun c hc => hn c (List.mem_of_mem_take hc))
  refine ⟨?_, (hpre (k + 1)).2⟩
  rw [List.take_succ]
  cases hk : news[k]? with
  | none => simp
  | some n =>
    have hmem : n ∈ news := List.getElem?_mem hk
    simp only [Option.toList]
    rw [compositeAll_append]
    exact (accumulate_alpha_bounds n _ (hpre k).2 (hn n hmem).1 (hn n hmem).2).1

section Background

variable [FloorRing F]

theorem background_alpha (sqrt : F → F) (m : Builtins F) (spheres : Spheres F)
    (point direction : Vec3 F) : (background sqrt m spheres point direction).w = 1 := by
  unfold background
  split
  · rfl
  · rw [shadowLoop_alpha]
    simp only [patternColor, Vec4.mix]
    ring

theorem main_calls (sqrt : F → F) (m : Builtins F) (spheres : Spheres F)
    (fragCoord : Vec2 F) :
    (main sqrt m spheres fragCoord).calls
      = (bounceLoop sqrt spheres 5 (initState sqrt m fragCoord)).calls
        ++ [(background sqrt m spheres
              (bounceLoop sqrt spheres 5 (initState sqrt m fragCoord)).point
              (bounceLoop sqrt spheres 5 (initState sqrt m fragCoord)).direction,
            (bounceLoop sqrt spheres 5 (initState sqrt m fragCoord)).gl_FragColor)] := rfl

theorem main_inv (sqrt : F → F) (m : Builtins F) (spheres : Spheres F)
    (fragCoord : Vec2 F) :
    (main sqrt m spheres fragCoord).gl_FragColor
        = compositeAll ((main sqrt m spheres fragCoord).calls.map Prod.fst) (Vec4.splat 0) ∧
    ∀ c ∈ (main sqrt m spheres fragCoord).calls,
      (c.1.w = 0.85 ∨ c.1.w = 1) ∧ 0 ≤ c.2.w ∧ c.2.w ≤ 1 := by
  obtain ⟨h0, h1, hc, hcalls⟩ :=
    bounceLoop_inv sqrt spheres 5 _ (initState_inv sqrt m fragCoord)
  constructor
  · rw [main_calls, List.map_append, List.map_cons, List.map_nil, compositeAll_append, ← hc]
    rfl
  · intro c hcm
    rw [main_calls] at hcm
    rcases List.mem_append.1 hcm with hcm | hcm
    · exact ⟨Or.inl (hcalls c hcm).1, (hcalls c hcm).2⟩
    · have hceq : c = (background sqrt m spheres
          (bounceLoop sqrt spheres 5 (initState sqrt m fragCoord)).point
          (bounceLoop sqrt spheres 5 (initState sqrt m fragCoord)).direction,
          (bounceLoop sqrt spheres 5 (initState sqrt m fragCoord)).gl_FragColor) := by
        simpa using hcm
      subst hceq
      exact ⟨Or.inr (background_alpha sqrt m spheres _ _), h0, h1⟩

end Background

end Loop

/-! ## The floor, the shadow loop and the running alpha -/

section Floor

variable {F : Type} [LinearOrderedField F]

theorem shadowLoop_some (sqrt : F → F) (spheres : Spheres F) (fc : Vec2 F) (color : Vec4 F)
    (l : List (Fin SPHERE_COUNT)) (h : ∃ i ∈ l, shadowTest sqrt (spheres i) fc) :
    shadowLoop sqrt spheres fc color l = Vec4.ofVec3 (Vec3.muls color.xyz 0.2) color.w := by
  induction l with
  | nil =>
    obtain ⟨i, hi, _⟩ := h
    simp at hi
  | cons j l ih =>
    simp only [shadowLoop]
    by_cases hj : shadowTest sqrt (spheres j) fc
    · rw [if_pos hj]
    · rw [if_neg hj]
      apply ih
      obtain ⟨i, hi, hs⟩ := h
      rcases List.mem_cons.1 hi with hij | hil
      · subst hij; exact absurd hs hj
      · exact ⟨i, hil, hs⟩

theorem bounceLoop_calls_length (sqrt : F → F) (spheres : Spheres F) (n : Nat) :
    ∀ s : MainState F,
      (bounceLoop sqrt spheres n s).calls.length ≤ s.calls.length + n := by
  induction n with
  | zero => intro s; simp [bounceLoop]
  | succ n ih =>
    intro s
    by_cases hhit : (castRay sqrt spheres s.point s.direction).color.w = 0
    · rw [bounceLoop_escape sqrt spheres n s hhit]
      simp only
      omega
    · rw [bounceLoop_hit sqrt spheres n s hhit]
      refine le_trans (ih _) ?_
      simp only [List.length_append, List.length_singleton]
      omega

theorem alphaInv_step (s : MainState F) (new_color : Vec4 F) (p d : Vec3 F)
    (casts : List (CastResult F)) (h : AlphaInv s) (hw : new_color.w = 0.85) :
    AlphaInv
      { gl_FragColor := accumulate_color new_color s.gl_FragColor
        point := p
        direction := d
        casts := casts
        calls := s.calls ++ [(new_color, s.gl_FragColor)] } := by
  obtain ⟨ha, hcalls⟩ := h
  constructor
  · simp only [accumulate_color, Vec4.ofVec3, List.length_append, List.length_singleton]
    rw [ha, hw, pow_succ]
    ring
  · intro j c hj
    simp only at hj
    by_cases hlt : j < s.calls.length
    · rw [List.getElem?_append_left hlt] at hj
      exact hcalls j c hj
    · have hge : s.calls.length ≤ j := Nat.le_of_not_lt hlt
      rw [List.getElem?_append_right hge] at hj
      have hj0 : j - s.calls.length = 0 := by
        by_contra hne
        obtain ⟨k, hk⟩ := Nat.exists_eq_succ_of_ne_zero hne
        rw [hk] at hj
        simp at hj
      rw [hj0] at hj
      have hc : c = (new_color, s.gl_FragColor) := by simpa using hj.symm
      have hjl : j = s.calls.length := by omega
      subst hc
      exact ⟨by rw [hjl]; exact ha, hw⟩

theorem bounceLoop_alphaInv (sqrt : F → F) (spheres : Spheres F) (n : Nat) :
    ∀ s : MainState F, AlphaInv s → AlphaInv (bounceLoop sqrt spheres n s) := by
  induction n with
  | zero => intro s h; exact h
  | succ n ih =>
    intro s h
    by_cases hhit : (castRay sqrt spheres s.point s.direction).color.w = 0
    · rw [bounceLoop_escape sqrt spheres n s hhit]
      exact h
    · rw [bounceLoop_hit sqrt spheres n s hhit]
      apply ih
      apply alphaInv_step s _ _ _ _ h
      rcases castRay_alpha_cases sqrt spheres s.point s.direction with h0 | h1
      · exact absurd h0 hhit
      · exact h1

theorem initState_alphaInv (sqrt : F → F) (m : Builtins F) (fragCoord : Vec2 F) :
    AlphaInv (initState sqrt m fragCoord) := by
  constructor
  · simp [initState, Vec4.splat]
  · intro j c hj
    simp [initState] at hj

end Floor

/-! ## Unit directions, shading and shadows over the reals -/

section Directions

theorem normalize_unit (v : Vec3 ℝ) (h : 0 < Vec3.dot v v) :
    Vec3.length Real.sqrt (Vec3.normalize Real.sqrt v) = 1 := by
  rw [unit_iff]
  have hl : Real.sqrt (Vec3.dot v v) * Real.sqrt (Vec3.dot v v) = Vec3.dot v v :=
    Real.mul_self_sqrt (le_of_lt h)
  have hl0 : Real.sqrt (Vec3.dot v v) ≠ 0 := ne_of_gt (Real.sqrt_pos.2 h)
  have hexp : Vec3.dot (Vec3.normalize Real.sqrt v) (Vec3.normalize Real.sqrt v)
      = Vec3.dot v v / (Real.sqrt (Vec3.dot v v) * Real.sqrt (Vec3.dot v v)) := by
    simp only [Vec3.normalize, Vec3.length, Vec3.divs]
    generalize Real.sqrt (Vec3.dot v v) = l at hl0
    simp only [Vec3.dot]
    field_simp
  rw [hexp, hl]
  exact div_self (ne_of_gt h)

theorem reflect_dot {F : Type} [LinearOrderedField F] (d n : Vec3 F)
    (hn : Vec3.dot n n = 1) :
    Vec3.dot (Vec3.reflect d n) (Vec3.reflect d n) = Vec3.dot d d := by
  simp only [Vec3.dot] at hn
  simp only [Vec3.reflect, Vec3.smul, Vec3.dot, Vec3.sub_x, Vec3.sub_y, Vec3.sub_z]
  linear_combination (4 * (n.x * d.x + n.y * d.y + n.z * d.z) ^ 2) * hn

theorem castRay_next_direction_unit (spheres : Spheres ℝ) (point direction : Vec3 ℝ)
    (hr : ∀ i, 0 < (spheres i).w) (hd : Vec3.length Real.sqrt direction = 1) :
    Vec3.length Real.sqrt (castRay Real.sqrt spheres point direction).next_direction = 1 := by
  have hd1 : Vec3.dot direction direction = 1 := (unit_iff direction).1 hd
  by_cases hpos : 0 < (scan Real.sqrt spheres point direction).1
  · have hon := hit_onSurface spheres point direction hr hd1 hpos
    rw [castRay_of_pos Real.sqrt spheres point direction hpos]
    simp only
    rw [normalize_eq_hitNormal _ _ hon, unit_iff,
      reflect_dot _ _ ((unit_iff _).1 (hitNormal_length _ _ (hr _) hon))]
    exact hd1
  · rw [castRay_of_not_pos Real.sqrt spheres point direction hpos]
    exact hd

theorem primaryDirection_unit (m : Builtins ℝ) (fragCoord : Vec2 ℝ) :
    Vec3.length Real.sqrt (primaryDirection Real.sqrt m fragCoord) = 1 ∧
    (primaryDirection Real.sqrt m fragCoord).z < 0 := by
  have hpos : ∀ a b : ℝ, 0 < Vec3.dot (⟨a, b, -1⟩ : Vec3 ℝ) ⟨a, b, -1⟩ := by
    intro a b
    simp only [Vec3.dot]
    nlinarith [mul_self_nonneg a, mul_self_nonneg b]
  constructor
  · exact normalize_unit _ (hpos _ _)
  · simp only [primaryDirection, Vec3.normalize, Vec3.divs, Vec3.length]
    exact div_neg_of_neg_of_pos (by norm_num) (Real.sqrt_pos.2 (hpos _ _))

theorem bounceLoop_dirInv (spheres : Spheres ℝ) (hr : ∀ i, 0 < (spheres i).w) (n : Nat) :
    ∀ s : MainState ℝ, DirInv Real.sqrt spheres s →
      DirInv Real.sqrt spheres (bounceLoop Real.sqrt spheres n s) := by
  induction n with
  | zero => intro s h; exact h
  | succ n ih =>
    intro s h
    obtain ⟨hd, hcasts⟩ := h
    have hlog : ∀ c ∈ s.casts ++ [castRay Real.sqrt spheres s.point s.direction],
        ∃ p d, Vec3.length Real.sqrt d = 1 ∧ c = castRay Real.sqrt spheres p d := by
      intro c hc
      rcases List.mem_append.1 hc with hc | hc
      · exact hcasts c hc
      · exact ⟨s.point, s.direction, hd, by simpa using hc⟩
    by_cases hhit : (castRay Real.sqrt spheres s.point s.direction).color.w = 0
    · rw [bounceLoop_escape Real.sqrt spheres n s hhit]
      exact ⟨hd, hlog⟩
    · rw [bounceLoop_hit Real.sqrt spheres n s hhit]
      apply ih
      exact ⟨castRay_next_direction_unit spheres s.point s.direction hr hd, hlog⟩

theorem nthRay_unit (spheres : Spheres ℝ) (hr : ∀ i, 0 < (spheres i).w)
    (point direction : Vec3 ℝ) (hd : Vec3.length Real.sqrt direction = 1) (k : Nat) :
    Vec3.length Real.sqrt (nthRay Real.sqrt spheres point direction k).2 = 1 := by
  induction k with
  | zero => exact hd
  | succ k ih =>
    rw [nthRay]
    exact castRay_next_direction_unit spheres _ _ hr ih

theorem dot_le_one (u v : Vec3 ℝ) (hu : Vec3.dot u u = 1) (hv : Vec3.dot v v = 1) :
    Vec3.dot u v ≤ 1 := by
  simp only [Vec3.dot] at hu hv ⊢
  nlinarith [sq_nonneg (u.x - v.x), sq_nonneg (u.y - v.y), sq_nonneg (u.z - v.z)]

theorem lightDirection_unit : Vec3.length Real.sqrt (lightDirection Real.sqrt) = 1 := by
  unfold lightDirection
  apply normalize_unit
  norm_num [Vec3.dot]

theorem length_sub_comm (u v : Vec3 ℝ) :
    Vec3.length Real.sqrt (u - v) = Vec3.length Real.sqrt (v - u) := by
  unfold Vec3.length
  congr 1
  simp only [Vec3.dot, Vec3.sub_x, Vec3.sub_y, Vec3.sub_z]
  ring

/-- A sphere through the ray origin does not qualify: its near root is
`b - |b|`. -/
theorem origin_on_sphere (s : Vec4 ℝ) (point direction : Vec3 ℝ)
    (h : Vec3.length Real.sqrt (s.xyz - point) = s.w) :
    this_dist Real.sqrt s point direction
      = center_dot_dir s point direction - |center_dot_dir s point direction| ∧
    ¬ qualifies Real.sqrt s point direction := by
  have hdot : Vec3.dot (s.xyz - point) (s.xyz - point) = s.w * s.w := by
    rw [← h]
    exact (Real.mul_self_sqrt (Vec3.dot_self_nonneg _)).symm
  have hD : discriminant s point direction
      = center_dot_dir s point direction * center_dot_dir s point direction := by
    unfold discriminant
    rw [hdot]; ring
  have ht : this_dist Real.sqrt s point direction
      = center_dot_dir s point direction - |center_dot_dir s point direction| := by
    unfold this_dist
    rw [hD, Real.sqrt_mul_self_eq_abs]
  refine ⟨ht, ?_⟩
  rintro ⟨_, hpos⟩
  rw [ht] at hpos
  have := le_abs_self (center_dot_dir s point direction)
  linarith

/-- The shadow test against a unit vector `L` is the strict positivity of the
discriminant of the ray along `L`. -/
theorem shadow_iff_discriminant (delta L : Vec3 ℝ) (r : ℝ) (hr : 0 < r)
    (hL : Vec3.dot L L = 1) :
    Vec3.length Real.sqrt (delta - Vec3.smul (Vec3.dot delta L) L) < r
      ↔ 0 < Vec3.dot delta L * Vec3.dot delta L + r * r - Vec3.dot delta delta := by
  unfold Vec3.length
  rw [Real.sqrt_lt' hr]
  have hexp : Vec3.dot (delta - Vec3.smul (Vec3.dot delta L) L)
      (delta - Vec3.smul (Vec3.dot delta L) L)
      = Vec3.dot delta delta - Vec3.dot delta L * Vec3.dot delta L := by
    simp only [Vec3.dot] at hL
    simp only [Vec3.dot, Vec3.smul, Vec3.sub_x, Vec3.sub_y, Vec3.sub_z]
    linear_combination ((delta.x * L.x + delta.y * L.y + delta.z * L.z) ^ 2) * hL
  rw [hexp]
  constructor <;> intro h <;> nlinarith

theorem fract_bounds (x : ℝ) : 0 ≤ fract x ∧ fract x < 1 :=
  ⟨Int.fract_nonneg x, Int.fract_lt_one x⟩

theorem tile_bounds (a b : ℝ) (ha0 : 0 ≤ a) (ha1 : a < 1) (hb0 : 0 ≤ b) (hb1 : b < 1) :
    0 ≤ 16 * a * (1 - a) * b * (1 - b) ∧ 16 * a * (1 - a) * b * (1 - b) ≤ 1 := by
  have h1 : 0 ≤ a * (1 - a) := mul_nonneg ha0 (by linarith)
  have h2 : 0 ≤ b * (1 - b) := mul_nonneg hb0 (by linarith)
  have h3 : a * (1 - a) ≤ 1 / 4 := by nlinarith [sq_nonneg (a - 1 / 2)]
  have h4 : b * (1 - b) ≤ 1 / 4 := by nlinarith [sq_nonneg (b - 1 / 2)]
  constructor
  · have := mul_nonneg h1 h2
    nlinarith
  · have := mul_le_mul h3 h4 h2 (by norm_num : (0 : ℝ) ≤ 1 / 4)
    nlinarith

theorem fade_bounds (p r : ℝ) (hp0 : 0 ≤ p) (hp1 : p ≤ 1) (hr : 0 ≤ r) :
    0 ≤ 0.5 + (p - 0.5) * 10 / (10 + r) ∧ 0.5 + (p - 0.5) * 10 / (10 + r) ≤ 1 := by
  have hk : 0 < 10 + r := by linarith
  constructor
  · have h : -0.5 ≤ (p - 0.5) * 10 / (10 + r) := by
      rw [le_div_iff₀ hk]
      norm_num
      nlinarith
    linarith
  · have h : (p - 0.5) * 10 / (10 + r) ≤ 0.5 := by
      rw [div_le_iff₀ hk]
      norm_num
      nlinarith
    linarith

theorem patternValue_bounds (tan radians : ℝ → ℝ) (atan : ℝ → ℝ → ℝ) (fc : Vec2 ℝ) :
    0 ≤ patternValue Real.sqrt ⟨tan, radians, atan, Real.rpow⟩ fc ∧
    patternValue Real.sqrt ⟨tan, radians, atan, Real.rpow⟩ fc ≤ 1 := by
  simp only [patternValue, Real.rpow_eq_pow]
  have hr : 0 ≤ Vec2.length Real.sqrt fc := Real.sqrt_nonneg _
  have hrf := fract_bounds (Vec2.length Real.sqrt fc)
  have haf := fract_bounds
    (ceil (2 * M_PI * ceil (Vec2.length Real.sqrt fc)) * (atan fc.y fc.x + M_PI)
      / (2 * M_PI))
  have hq := tile_bounds _ _ hrf.1 hrf.2 haf.1 haf.2
  exact fade_bounds _ _ (Real.rpow_nonneg hq.1 _)
    (Real.rpow_le_one hq.1 hq.2 (by norm_num)) hr

end Directions

section Claims

variable {F : Type} [LinearOrderedField F]

/-- C1: over the reals, for positive radii, a unit direction and an origin
strictly outside every sphere, `castRay` reports a hit (alpha not `0`) iff some
`t > 0` puts `point + t*direction` on the surface of some sphere; and on a hit
the continuation point is `point + t0*direction` for the least such `t`. -/
theorem castRay_nearest_forward_intersection (spheres : Spheres ℝ)
    (point direction : Vec3 ℝ) (hr : ∀ i, 0 < (spheres i).w)
    (hd : Vec3.length Real.sqrt direction = 1)
    (hout : ∀ i, (spheres i).w < Vec3.length Real.sqrt (point - (spheres i).xyz)) :
    ((castRay Real.sqrt spheres point direction).color.w ≠ 0 ↔
      ∃ t, 0 < t ∧
        ∃ i, onSurface Real.sqrt (spheres i) (point + Vec3.smul t direction)) ∧
    ((castRay Real.sqrt spheres point direction).color.w ≠ 0 →
      ∃ t0, 0 < t0 ∧
        (∃ i, onSurface Real.sqrt (spheres i) (point + Vec3.smul t0 direction)) ∧
        (∀ t, 0 < t →
          (∃ i, onSurface Real.sqrt (spheres i) (point + Vec3.smul t direction)) →
          t0 ≤ t) ∧
        (castRay Real.sqrt spheres point direction).next_point
          = point + Vec3.smul t0 direction) := by
  have hd1 : Vec3.dot direction direction = 1 := (unit_iff direction).1 hd
  have hq : ∀ i, qualifies Real.sqrt (spheres i) point direction ↔
      ∃ t, 0 < t ∧ onSurface Real.sqrt (spheres i) (point + Vec3.smul t direction) :=
    fun i => qualifies_iff_forward (spheres i) point direction (hr i) hd1 (hout i)
  constructor
  · rw [castRay_alpha_ne_zero_iff, scan_pos_iff]
    constructor
    · rintro ⟨i, hi⟩
      obtain ⟨t, ht, hon⟩ := (hq i).1 hi
      exact ⟨t, ht, i, hon⟩
    · rintro ⟨t, ht, i, hon⟩
      exact ⟨i, (hq i).2 ⟨t, ht, hon⟩⟩
  · intro hhit
    have hpos := (castRay_alpha_ne_zero_iff _ _ _ _).1 hhit
    obtain ⟨_, _, _, hmin⟩ :=
      scan_of_qualifies Real.sqrt spheres point direction ((scan_pos_iff _ _ _ _).1 hpos)
    refine ⟨(scan Real.sqrt spheres point direction).1, hpos,
      ⟨_, hit_onSurface spheres point direction hr hd1 hpos⟩, ?_, ?_⟩
    · rintro t ht ⟨i, hon⟩
      have h1 := (hmin i ((hq i).2 ⟨t, ht, hon⟩)).1
      have h2 := this_dist_le_of_onSurface (spheres i) point direction (hr i) hd1 t hon
      exact le_trans h1 h2
    · rw [castRay_of_pos Real.sqrt spheres point direction hpos]

/-- Witness of C1: five unit spheres at the origin and the ray from `(0,0,5)`
towards `(0,0,-1)`. -/
theorem castRay_nearest_forward_intersection_witness :
    ((castRay Real.sqrt (fun _ => (⟨0, 0, 0, 1⟩ : Vec4 ℝ)) ⟨0, 0, 5⟩ ⟨0, 0, -1⟩).color.w ≠ 0
      ↔ ∃ t, 0 < t ∧ ∃ i : Fin SPHERE_COUNT,
          onSurface Real.sqrt ((fun _ => (⟨0, 0, 0, 1⟩ : Vec4 ℝ)) i)
            ((⟨0, 0, 5⟩ : Vec3 ℝ) + Vec3.smul t ⟨0, 0, -1⟩)) :=
  (castRay_nearest_forward_intersection (fun _ => ⟨0, 0, 0, 1⟩) ⟨0, 0, 5⟩ ⟨0, 0, -1⟩
    (fun _ => by norm_num)
    (by rw [unit_iff]; norm_num [Vec3.dot])
    (fun _ => by
      apply Real.lt_sqrt_of_sq_lt
      norm_num [Vec3.dot, Vec4.xyz])).1

/-- C3: if no sphere qualifies, `castRay` returns the colour `(0,0,0,0)` and
hands back `point` and `direction` unchanged; if some sphere qualifies the
returned alpha is `0.85`; hence the test `color.a == 0` of the bounce loop holds
exactly when no sphere qualifies. -/
theorem castRay_escape (sqrt : F → F) (spheres : Spheres F) (point direction : Vec3 F) :
    ((∀ i, ¬ qualifies sqrt (spheres i) point direction) →
      (castRay sqrt spheres point direction).color = ⟨0, 0, 0, 0⟩ ∧
      (castRay sqrt spheres point direction).next_point = point ∧
      (castRay sqrt spheres point direction).next_direction = direction) ∧
    ((∃ i, qualifies sqrt (spheres i) point direction) →
      (castRay sqrt spheres point direction).color.w = 0.85) ∧
    ((castRay sqrt spheres point direction).color.w = 0
      ↔ ∀ i, ¬ qualifies sqrt (spheres i) point direction) := by
  refine ⟨?_, ?_, ?_⟩
  · intro h
    have hn : ¬ 0 < (scan sqrt spheres point direction).1 := by
      rw [scan_pos_iff]; rintro ⟨i, hi⟩; exact h i hi
    rw [castRay_of_not_pos sqrt spheres point direction hn]
    exact ⟨rfl, rfl, rfl⟩
  · intro h
    rw [castRay_of_pos sqrt spheres point direction ((scan_pos_iff _ _ _ _).2 h)]
    rfl
  · rw [← not_exists, ← scan_pos_iff, ← castRay_alpha_ne_zero_iff, not_not]

/-- C4: over the reals, for positive radii and a unit direction, whenever
`castRay` reports a hit, on sphere `k = index` at distance `t = distance`:
`t > 0`, the continuation point is `point + t*direction` and lies on the surface
of sphere `k`, and the shading normal `(next_point - center_k)/radius_k` has
length `1`.  Scenario: when the array holds the unit sphere at the origin (every
other entry, if any, not qualifying) the ray from `(0,0,5)` towards `(0,0,-1)`
gives hit point `(0,0,1)`, normal `(0,0,1)` and alpha `0.85`. -/
theorem castRay_hit_on_surface :
    (∀ (spheres : Spheres ℝ) (point direction : Vec3 ℝ),
      (∀ i, 0 < (spheres i).w) → Vec3.length Real.sqrt direction = 1 →
      (castRay Real.sqrt spheres point direction).color.w ≠ 0 →
      0 < (scan Real.sqrt spheres point direction).1 ∧
      (castRay Real.sqrt spheres point direction).next_point
        = point + Vec3.smul (scan Real.sqrt spheres point direction).1 direction ∧
      Vec3.length Real.sqrt
          ((castRay Real.sqrt spheres point direction).next_point
            - (spheres (scan Real.sqrt spheres point direction).2).xyz)
        = (spheres (scan Real.sqrt spheres point direction).2).w ∧
      Vec3.length Real.sqrt
          (hitNormal (spheres (scan Real.sqrt spheres point direction).2)
            (castRay Real.sqrt spheres point direction).next_point) = 1) ∧
    (∀ spheres : Spheres ℝ, (∃ i, spheres i = ⟨0, 0, 0, 1⟩) →
      (∀ i, spheres i = ⟨0, 0, 0, 1⟩
        ∨ ¬ qualifies Real.sqrt (spheres i) ⟨0, 0, 5⟩ ⟨0, 0, -1⟩) →
      (castRay Real.sqrt spheres ⟨0, 0, 5⟩ ⟨0, 0, -1⟩).next_point = ⟨0, 0, 1⟩ ∧
      hitNormal (spheres (scan Real.sqrt spheres ⟨0, 0, 5⟩ ⟨0, 0, -1⟩).2)
          (castRay Real.sqrt spheres ⟨0, 0, 5⟩ ⟨0, 0, -1⟩).next_point = ⟨0, 0, 1⟩ ∧
      (castRay Real.sqrt spheres ⟨0, 0, 5⟩ ⟨0, 0, -1⟩).color.w = 0.85) := by
  constructor
  · intro spheres point direction hr hd hhit
    have hd1 : Vec3.dot direction direction = 1 := (unit_iff direction).1 hd
    have hpos := (castRay_alpha_ne_zero_iff _ _ _ _).1 hhit
    have hon := hit_onSurface spheres point direction hr hd1 hpos
    rw [castRay_of_pos Real.sqrt spheres point direction hpos]
    exact ⟨hpos, rfl, hon, hitNormal_length _ _ (hr _) hon⟩
  · intro spheres h1 h2
    obtain ⟨hdist, hk⟩ := scenario_scan spheres h1 h2
    have hpos : 0 < (scan Real.sqrt spheres ⟨0, 0, 5⟩ ⟨0, 0, -1⟩).1 := by
      rw [hdist]; norm_num
    rw [castRay_of_pos Real.sqrt spheres _ _ hpos, hk, hdist]
    refine ⟨?_, ?_, rfl⟩
    · ext <;> norm_num [Vec3.smul]
    · ext <;> norm_num [hitNormal, Vec3.divs, Vec3.smul, Vec4.xyz]

/-- Witness of C4: the array whose entry `0` is the unit sphere at the origin
and whose other entries are unit spheres centred at `(0,100,0)`. -/
theorem castRay_hit_on_surface_witness :
    (castRay Real.sqrt
        (fun i => if i = 0 then (⟨0, 0, 0, 1⟩ : Vec4 ℝ) else ⟨0, 100, 0, 1⟩)
        ⟨0, 0, 5⟩ ⟨0, 0, -1⟩).next_point = ⟨0, 0, 1⟩ ∧
    (castRay Real.sqrt
        (fun i => if i = 0 then (⟨0, 0, 0, 1⟩ : Vec4 ℝ) else ⟨0, 100, 0, 1⟩)
        ⟨0, 0, 5⟩ ⟨0, 0, -1⟩).color.w = 0.85 := by
  have h := castRay_hit_on_surface.2
    (fun i => if i = 0 then (⟨0, 0, 0, 1⟩ : Vec4 ℝ) else ⟨0, 100, 0, 1⟩)
    ⟨0, by simp⟩
    (fun i => by
      by_cases hi : i = 0
      · left; simp [hi]
      · right
        simp only [hi, if_false]
        intro hq
        have hD := hq.1
        norm_num [discriminant, center_dot_dir, Vec3.dot, Vec4.xyz] at hD)
  exact ⟨h.1, h.2.2⟩

/-- C10: over the reals, `reflect(d, n) = d - 2*dot(d, n)*n` is an involution in
`d` for every unit vector `n`; and on every hit reported by `castRay` with
positive radii and a unit direction, the continuation direction, which the code
computes with `normalize(next_point - center)`, equals `reflect(direction, n)`
for the shading normal `n = (next_point - center)/radius`. -/
theorem reflect_involutive_and_continuation :
    (∀ d n : Vec3 ℝ, Vec3.reflect d n = d - Vec3.smul (2 * Vec3.dot d n) n) ∧
    (∀ d n : Vec3 ℝ, Vec3.length Real.sqrt n = 1 →
      Vec3.reflect (Vec3.reflect d n) n = d) ∧
    (∀ (spheres : Spheres ℝ) (point direction : Vec3 ℝ),
      (∀ i, 0 < (spheres i).w) → Vec3.length Real.sqrt direction = 1 →
      (castRay Real.sqrt spheres point direction).color.w ≠ 0 →
      (castRay Real.sqrt spheres point direction).next_direction
        = Vec3.reflect direction
            (hitNormal (spheres (scan Real.sqrt spheres point direction).2)
              (castRay Real.sqrt spheres point direction).next_point)) := by
  refine ⟨?_, ?_, ?_⟩
  · intro d n
    ext <;> simp only [Vec3.reflect, Vec3.smul, Vec3.dot, Vec3.sub_x, Vec3.sub_y,
      Vec3.sub_z] <;> ring
  · intro d n hn
    exact reflect_reflect d n ((unit_iff n).1 hn)
  · intro spheres point direction hr hd hhit
    have hd1 : Vec3.dot direction direction = 1 := (unit_iff direction).1 hd
    have hpos := (castRay_alpha_ne_zero_iff _ _ _ _).1 hhit
    have hon := hit_onSurface spheres point direction hr hd1 hpos
    rw [castRay_of_pos Real.sqrt spheres point direction hpos]
    simp only
    rw [normalize_eq_hitNormal _ _ hon]

/-- Witness of C10: reflecting `(1,2,3)` twice about `(0,0,1)`, and the bounce of
the ray from `(0,0,5)` towards `(0,0,-1)` off five unit spheres at the origin. -/
theorem reflect_involutive_and_continuation_witness :
    Vec3.reflect (Vec3.reflect (⟨1, 2, 3⟩ : Vec3 ℝ) ⟨0, 0, 1⟩) ⟨0, 0, 1⟩ = ⟨1, 2, 3⟩ ∧
    (castRay Real.sqrt (fun _ => (⟨0, 0, 0, 1⟩ : Vec4 ℝ)) ⟨0, 0, 5⟩ ⟨0, 0, -1⟩).next_direction
      = Vec3.reflect ⟨0, 0, -1⟩
          (hitNormal
            ((fun _ => (⟨0, 0, 0, 1⟩ : Vec4 ℝ))
              (scan Real.sqrt (fun _ => (⟨0, 0, 0, 1⟩ : Vec4 ℝ)) ⟨0, 0, 5⟩ ⟨0, 0, -1⟩).2)
            (castRay Real.sqrt (fun _ => (⟨0, 0, 0, 1⟩ : Vec4 ℝ))
              ⟨0, 0, 5⟩ ⟨0, 0, -1⟩).next_point) := by
  have hunit : Vec3.length Real.sqrt (⟨0, 0, -1⟩ : Vec3 ℝ) = 1 := by
    rw [unit_iff]; norm_num [Vec3.dot]
  have hhit : (castRay Real.sqrt (fun _ => (⟨0, 0, 0, 1⟩ : Vec4 ℝ))
      ⟨0, 0, 5⟩ ⟨0, 0, -1⟩).color.w ≠ 0 := by
    rw [castRay_alpha_ne_zero_iff, scan_pos_iff]
    exact ⟨0, scenario_this_dist.1⟩
  exact ⟨reflect_involutive_and_continuation.2.1 ⟨1, 2, 3⟩ ⟨0, 0, 1⟩
      (by rw [unit_iff]; norm_num [Vec3.dot]),
    reflect_involutive_and_continuation.2.2 (fun _ => ⟨0, 0, 0, 1⟩) ⟨0, 0, 5⟩ ⟨0, 0, -1⟩
      (fun _ => by norm_num) hunit hhit⟩

/-- C5 (counterexample): compositing the new colour `(1,1,1,0.85)` onto the empty
running colour `(0,0,0,0)`, as the first bounce does, gives rgb `20/17` and
alpha `17/20`; rgb times alpha is `1`, whereas the over value
`out.rgb*out.a + (1 - out.a)*new.a*new.rgb` is `17/20`. -/
theorem accumulate_color_not_over :
    ((0 : ℚ) ≤ 0 ∧ (0 : ℚ) ≤ 1 ∧ (0 : ℚ) ≤ 0.85 ∧ (0.85 : ℚ) ≤ 1 ∧ (0 : ℚ) < 0 + 0.85) ∧
    accumulate_color (⟨1, 1, 1, 0.85⟩ : Vec4 ℚ) ⟨0, 0, 0, 0⟩
      = ⟨20 / 17, 20 / 17, 20 / 17, 17 / 20⟩ ∧
    (accumulate_color (⟨1, 1, 1, 0.85⟩ : Vec4 ℚ) ⟨0, 0, 0, 0⟩).x
        * (accumulate_color (⟨1, 1, 1, 0.85⟩ : Vec4 ℚ) ⟨0, 0, 0, 0⟩).w
      ≠ 0 * 0 + (1 - 0) * 0.85 * 1 := by
  refine ⟨by norm_num, ?_, ?_⟩
  · ext <;> norm_num [accumulate_color, Vec4.ofVec3, Vec3.mix, Vec3.muls, Vec4.xyz]
  · norm_num [accumulate_color, Vec4.ofVec3, Vec3.mix, Vec3.muls, Vec4.xyz]

/-- C5 (amended): for `out.a + new.a > 0`, `accumulate_color` leaves alpha
`out.a + (1 - out.a)*new.a` and rgb `mix(out.rgb, new.rgb, k)` with
`k = (1 - out.a)/(out.a + new.a)`, so that
`rgb*(out.a + new.a) = out.rgb*(2*out.a + new.a - 1) + new.rgb*(1 - out.a)`; the
resulting rgb times the resulting alpha is the over value
`out.rgb*out.a + new.rgb*((1 - out.a)*new.a)` when `out.a = 1`, and when
`out.a = 0` and `new.a = 1`. -/
theorem accumulate_color_mix (new_color color : Vec4 F)
    (h : 0 < color.w + new_color.w) :
    (accumulate_color new_color color).w = color.w + (1 - color.w) * new_color.w ∧
    (accumulate_color new_color color).xyz
      = Vec3.mix color.xyz new_color.xyz ((1 - color.w) / (color.w + new_color.w)) ∧
    Vec3.muls (accumulate_color new_color color).xyz (color.w + new_color.w)
      = Vec3.muls color.xyz (2 * color.w + new_color.w - 1)
          + Vec3.muls new_color.xyz (1 - color.w) ∧
    (color.w = 1 ∨ (color.w = 0 ∧ new_color.w = 1) →
      Vec3.muls (accumulate_color new_color color).xyz (accumulate_color new_color color).w
        = Vec3.muls color.xyz color.w
            + Vec3.muls new_color.xyz ((1 - color.w) * new_color.w)) := by
  have hne : color.w + new_color.w ≠ 0 := ne_of_gt h
  have hk : (1 - color.w) / (color.w + new_color.w) * (color.w + new_color.w)
      = 1 - color.w := div_mul_cancel₀ _ hne
  refine ⟨rfl, rfl, ?_, ?_⟩
  · ext
    · simp only [accumulate_color, Vec4.ofVec3, Vec4.xyz, Vec3.mix, Vec3.muls, Vec3.add_x]
      linear_combination (new_color.x - color.x) * hk
    · simp only [accumulate_color, Vec4.ofVec3, Vec4.xyz, Vec3.mix, Vec3.muls, Vec3.add_y]
      linear_combination (new_color.y - color.y) * hk
    · simp only [accumulate_color, Vec4.ofVec3, Vec4.xyz, Vec3.mix, Vec3.muls, Vec3.add_z]
      linear_combination (new_color.z - color.z) * hk
  · rintro (h1 | ⟨h0, h1⟩)
    · ext <;>
        simp [accumulate_color, Vec4.ofVec3, Vec4.xyz, Vec3.mix, Vec3.muls, h1]
    · ext <;>
        simp [accumulate_color, Vec4.ofVec3, Vec4.xyz, Vec3.mix, Vec3.muls, h0, h1]

/-- Witness of C5 (amended): the first bounce composite, `(1,1,1,0.85)` onto
`(0,0,0,0)`. -/
theorem accumulate_color_mix_witness :
    (0 : ℚ) < 0 + 0.85 ∧
    (accumulate_color (⟨1, 1, 1, 0.85⟩ : Vec4 ℚ) ⟨0, 0, 0, 0⟩).w = 0 + (1 - 0) * 0.85 ∧
    Vec3.muls (accumulate_color (⟨1, 1, 1, 0.85⟩ : Vec4 ℚ) ⟨0, 0, 0, 0⟩).xyz (0 + 0.85)
      = Vec3.muls (Vec4.xyz (⟨0, 0, 0, 0⟩ : Vec4 ℚ)) (2 * 0 + 0.85 - 1)
          + Vec3.muls (Vec4.xyz (⟨1, 1, 1, 0.85⟩ : Vec4 ℚ)) (1 - 0) :=
  ⟨by norm_num,
    (accumulate_color_mix (⟨1, 1, 1, 0.85⟩ : Vec4 ℚ) ⟨0, 0, 0, 0⟩ (by norm_num)).1,
    (accumulate_color_mix (⟨1, 1, 1, 0.85⟩ : Vec4 ℚ) ⟨0, 0, 0, 0⟩ (by norm_num)).2.2.1⟩

variable [FloorRing F]

/-- C6: for a running alpha `a` and a new alpha `b`, both in `[0,1]`,
`accumulate_color` leaves alpha `a + (1 - a)*b`, which is at least `a` and at
most `1`; hence along any sequence of composites that starts from `vec4(0)` the
accumulated alpha never decreases and never exceeds `1`.  The composites of
`main` (the bounce composites and the final background composite) are such a
sequence: their new alphas are in `[0,1]` and `gl_FragColor` is their
composite. -/
theorem accumulated_alpha_monotone :
    (∀ new_color color : Vec4 F, 0 ≤ color.w → color.w ≤ 1 →
      0 ≤ new_color.w → new_color.w ≤ 1 →
      (accumulate_color new_color color).w = color.w + (1 - color.w) * new_color.w ∧
      color.w ≤ (accumulate_color new_color color).w ∧
      (accumulate_color new_color color).w ≤ 1) ∧
    (∀ news : List (Vec4 F), (∀ n ∈ news, 0 ≤ n.w ∧ n.w ≤ 1) → ∀ k,
      (compositeAll (news.take k) (Vec4.splat 0)).w
          ≤ (compositeAll (news.take (k + 1)) (Vec4.splat 0)).w ∧
      (compositeAll (news.take (k + 1)) (Vec4.splat 0)).w ≤ 1) ∧
    (∀ (sqrt : F → F) (m : Builtins F) (spheres : Spheres F) (fragCoord : Vec2 F),
      (∀ c ∈ (main sqrt m spheres fragCoord).calls,
        0 ≤ c.1.w ∧ c.1.w ≤ 1 ∧ 0 ≤ c.2.w ∧ c.2.w ≤ 1 ∧
        c.2.w ≤ (accumulate_color c.1 c.2).w ∧ (accumulate_color c.1 c.2).w ≤ 1) ∧
      (main sqrt m spheres fragCoord).gl_FragColor
        = compositeAll ((main sqrt m spheres fragCoord).calls.map Prod.fst)
            (Vec4.splat 0)) := by
  refine ⟨?_, ?_, ?_⟩
  · intro new_color color _ ha1 hb0 hb1
    exact ⟨rfl, accumulate_alpha_bounds new_color color ha1 hb0 hb1⟩
  · intro news hn k
    exact compositeAll_take_succ news hn k
  · intro sqrt m spheres fragCoord
    obtain ⟨hc, hcalls⟩ := main_inv sqrt m spheres fragCoord
    refine ⟨?_, hc⟩
    intro c hcm
    obtain ⟨hnew, h0, h1⟩ := hcalls c hcm
    have hb : 0 ≤ c.1.w ∧ c.1.w ≤ 1 := by
      rcases hnew with h | h <;> rw [h] <;> norm_num
    have := accumulate_alpha_bounds c.1 c.2 h1 hb.1 hb.2
    exact ⟨hb.1, hb.2, h0, h1, this.1, this.2⟩

/-- C7: in every call of `accumulate_color` made by `main`, whatever the fragment
coordinate and the sphere array, the divisor `color.a + new_color.a` is strictly
positive: the running alpha is at least `0` and the new alpha is not `0`.  The
calls of the bounce loop all have a new alpha different from `0`, and the last
call composites the background colour, whose alpha is `1`. -/
theorem accumulate_divisor_pos (sqrt : F → F) (m : Builtins F) (spheres : Spheres F)
    (fragCoord : Vec2 F) :
    (∀ c ∈ (main sqrt m spheres fragCoord).calls,
      0 < c.2.w + c.1.w ∧ 0 ≤ c.2.w ∧ c.1.w ≠ 0) ∧
    (∀ c ∈ (bounceLoop sqrt spheres 5 (initState sqrt m fragCoord)).calls, c.1.w ≠ 0) ∧
    (main sqrt m spheres fragCoord).calls
      = (bounceLoop sqrt spheres 5 (initState sqrt m fragCoord)).calls
        ++ [(background sqrt m spheres
              (bounceLoop sqrt spheres 5 (initState sqrt m fragCoord)).point
              (bounceLoop sqrt spheres 5 (initState sqrt m fragCoord)).direction,
            (bounceLoop sqrt spheres 5 (initState sqrt m fragCoord)).gl_FragColor)] ∧
    (background sqrt m spheres
        (bounceLoop sqrt spheres 5 (initState sqrt m fragCoord)).point
        (bounceLoop sqrt spheres 5 (initState sqrt m fragCoord)).direction).w = 1 := by
  refine ⟨?_, ?_, main_calls sqrt m spheres fragCoord, background_alpha sqrt m spheres _ _⟩
  · intro c hcm
    obtain ⟨hnew, h0, _⟩ := (main_inv sqrt m spheres fragCoord).2 c hcm
    have hb : 0 < c.1.w := by
      rcases hnew with h | h <;> rw [h] <;> norm_num
    exact ⟨by linarith, h0, ne_of_gt hb⟩
  · intro c hcm
    have := ((bounceLoop_inv sqrt spheres 5 _ (initState_inv sqrt m fragCoord)).2.2.2 c hcm).1
    rw [this]
    norm_num

/-- C8: the bounce loop of `main` makes at most 5 `castRay` evaluations.  If ray
number `j` (counted from `0`, `j < 5`) of the chain of continuation rays is the
first that reports no hit, the evaluations are exactly those of the rays
`0, ..., j` (`j + 1` of them) and the composited colours are exactly those of the
rays `0, ..., j - 1`; if the first five rays all report hits, there are exactly 5
evaluations and 5 composites.  `main` makes no `castRay` evaluation outside the
loop. -/
theorem bounce_loop_evaluations (sqrt : F → F) (m : Builtins F) (spheres : Spheres F)
    (fragCoord : Vec2 F) :
    (main sqrt m spheres fragCoord).casts
      = (bounceLoop sqrt spheres 5 (initState sqrt m fragCoord)).casts ∧
    (bounceLoop sqrt spheres 5 (initState sqrt m fragCoord)).casts.length ≤ 5 ∧
    (∀ j, j < 5 →
      (∀ i, i < j →
        (nthCast sqrt spheres ⟨0, 0, 0⟩ (primaryDirection sqrt m fragCoord) i).color.w ≠ 0) →
      (nthCast sqrt spheres ⟨0, 0, 0⟩ (primaryDirection sqrt m fragCoord) j).color.w = 0 →
      (bounceLoop sqrt spheres 5 (initState sqrt m fragCoord)).casts
        = (List.range (j + 1)).map
            (nthCast sqrt spheres ⟨0, 0, 0⟩ (primaryDirection sqrt m fragCoord)) ∧
      (bounceLoop sqrt spheres 5 (initState sqrt m fragCoord)).casts.length = j + 1 ∧
      (bounceLoop sqrt spheres 5 (initState sqrt m fragCoord)).calls.map Prod.fst
        = (List.range j).map (fun i =>
            (nthCast sqrt spheres ⟨0, 0, 0⟩ (primaryDirection sqrt m fragCoord) i).color) ∧
      (bounceLoop sqrt spheres 5 (initState sqrt m fragCoord)).calls.length = j) ∧
    ((∀ i, i < 5 →
        (nthCast sqrt spheres ⟨0, 0, 0⟩ (primaryDirection sqrt m fragCoord) i).color.w ≠ 0) →
      (bounceLoop sqrt spheres 5 (initState sqrt m fragCoord)).casts
        = (List.range 5).map
            (nthCast sqrt spheres ⟨0, 0, 0⟩ (primaryDirection sqrt m fragCoord)) ∧
      (bounceLoop sqrt spheres 5 (initState sqrt m fragCoord)).casts.length = 5 ∧
      (bounceLoop sqrt spheres 5 (initState sqrt m fragCoord)).calls.map Prod.fst
        = (List.range 5).map (fun i =>
            (nthCast sqrt spheres ⟨0, 0, 0⟩ (primaryDirection sqrt m fragCoord) i).color) ∧
      (bounceLoop sqrt spheres 5 (initState sqrt m fragCoord)).calls.length = 5) := by
  refine ⟨rfl, ?_, ?_, ?_⟩
  · have := bounceLoop_casts_length sqrt spheres 5 (initState sqrt m fragCoord)
    simpa [initState] using this
  · intro j hj hhits hesc
    obtain ⟨h1, h2, _, _⟩ := bounceLoop_trace sqrt spheres 5 (initState sqrt m fragCoord) j
      (le_of_lt hj) hhits (Or.inr hesc)
    have hmin : min (j + 1) 5 = j + 1 := by omega
    rw [hmin] at h1
    have h1a : (bounceLoop sqrt spheres 5 (initState sqrt m fragCoord)).casts
        = (List.range (j + 1)).map
            (nthCast sqrt spheres ⟨0, 0, 0⟩ (primaryDirection sqrt m fragCoord)) := by
      rw [h1]; simp [initState]
    have h2a : (bounceLoop sqrt spheres 5 (initState sqrt m fragCoord)).calls.map Prod.fst
        = (List.range j).map (fun i =>
            (nthCast sqrt spheres ⟨0, 0, 0⟩ (primaryDirection sqrt m fragCoord) i).color) := by
      rw [h2]; simp [initState]
    refine ⟨h1a, by rw [h1a]; simp, h2a, ?_⟩
    have := congrArg List.length h2a
    simpa using this
  · intro hhits
    obtain ⟨h1, h2, _, _⟩ := bounceLoop_trace sqrt spheres 5 (initState sqrt m fragCoord) 5
      (le_refl _) hhits (Or.inl rfl)
    have h1a : (bounceLoop sqrt spheres 5 (initState sqrt m fragCoord)).casts
        = (List.range 5).map
            (nthCast sqrt spheres ⟨0, 0, 0⟩ (primaryDirection sqrt m fragCoord)) := by
      rw [h1]; simp [initState]
    have h2a : (bounceLoop sqrt spheres 5 (initState sqrt m fragCoord)).calls.map Prod.fst
        = (List.range 5).map (fun i =>
            (nthCast sqrt spheres ⟨0, 0, 0⟩ (primaryDirection sqrt m fragCoord) i).color) := by
      rw [h2]; simp [initState]
    refine ⟨h1a, by rw [h1a]; simp, h2a, ?_⟩
    have := congrArg List.length h2a
    simpa using this

/-- C9: when the primary ray hits no sphere, `main` makes exactly one `castRay`
evaluation and `gl_FragColor` is the background colour of the primary ray,
unchanged by the composite onto `vec4(0)`: for `direction.y >= 0` it is
`((0.5, 0.9, 1)*(1 - direction.y), 1)`; for `direction.y < 0` it has alpha `1`,
it is the floor pattern colour after the shadow loop, and it is the floor
pattern colour itself when no sphere passes the shadow test. -/
theorem primary_escape_background (sqrt : F → F) (m : Builtins F) (spheres : Spheres F)
    (fragCoord : Vec2 F)
    (h : (castRay sqrt spheres ⟨0, 0, 0⟩ (primaryDirection sqrt m fragCoord)).color.w = 0) :
    (main sqrt m spheres fragCoord).casts
      = [castRay sqrt spheres ⟨0, 0, 0⟩ (primaryDirection sqrt m fragCoord)] ∧
    (main sqrt m spheres fragCoord).gl_FragColor
      = background sqrt m spheres ⟨0, 0, 0⟩ (primaryDirection sqrt m fragCoord) ∧
    ((primaryDirection sqrt m fragCoord).y ≥ 0 →
      (main sqrt m spheres fragCoord).gl_FragColor
        = Vec4.ofVec3
            (Vec3.muls ⟨0.5, 0.9, 1⟩ (1 - (primaryDirection sqrt m fragCoord).y)) 1) ∧
    ((primaryDirection sqrt m fragCoord).y < 0 →
      (main sqrt m spheres fragCoord).gl_FragColor.w = 1 ∧
      (main sqrt m spheres fragCoord).gl_FragColor
        = shadowLoop sqrt spheres
            (floorCoords ⟨0, 0, 0⟩ (primaryDirection sqrt m fragCoord))
            (patternColor sqrt m (floorCoords ⟨0, 0, 0⟩ (primaryDirection sqrt m fragCoord)))
            (List.finRange SPHERE_COUNT) ∧
      ((∀ i, ¬ shadowTest sqrt (spheres i)
          (floorCoords ⟨0, 0, 0⟩ (primaryDirection sqrt m fragCoord))) →
        (main sqrt m spheres fragCoord).gl_FragColor
          = patternColor sqrt m
              (floorCoords ⟨0, 0, 0⟩ (primaryDirection sqrt m fragCoord)))) := by
  have hloop : bounceLoop sqrt spheres 5 (initState sqrt m fragCoord)
      = { initState sqrt m fragCoord with
          casts := [castRay sqrt spheres ⟨0, 0, 0⟩ (primaryDirection sqrt m fragCoord)] } :=
    bounceLoop_escape sqrt spheres 4 (initState sqrt m fragCoord) h
  have hcasts : (main sqrt m spheres fragCoord).casts
      = [castRay sqrt spheres ⟨0, 0, 0⟩ (primaryDirection sqrt m fragCoord)] := by
    have hmain : (main sqrt m spheres fragCoord).casts
        = (bounceLoop sqrt spheres 5 (initState sqrt m fragCoord)).casts := rfl
    rw [hmain, hloop]
  have hcol : (main sqrt m spheres fragCoord).gl_FragColor
      = background sqrt m spheres ⟨0, 0, 0⟩ (primaryDirection sqrt m fragCoord) := by
    have hmain : (main sqrt m spheres fragCoord).gl_FragColor
        = accumulate_color
            (background sqrt m spheres
              (bounceLoop sqrt spheres 5 (initState sqrt m fragCoord)).point
              (bounceLoop sqrt spheres 5 (initState sqrt m fragCoord)).direction)
            (bounceLoop sqrt spheres 5 (initState sqrt m fragCoord)).gl_FragColor := rfl
    rw [hmain, hloop]
    exact accumulate_onto_empty _ (background_alpha sqrt m spheres _ _)
  refine ⟨hcasts, hcol, ?_, ?_⟩
  · intro hy
    rw [hcol, background, if_pos hy]
    rfl
  · intro hy
    have hny : ¬ (primaryDirection sqrt m fragCoord).y ≥ 0 := not_le.2 hy
    refine ⟨by rw [hcol]; exact background_alpha sqrt m spheres _ _, ?_, ?_⟩
    · rw [hcol, background, if_neg hny]
    · intro hsh
      rw [hcol, background, if_neg hny]
      exact shadowLoop_none sqrt spheres _ _ _ (fun i _ => hsh i)

/-- Witness of C9: over the reals, the centre fragment `(320, 240)`, whose
primary direction is `(0,0,-1)`, with five unit spheres centred at `(0,100,0)`:
one evaluation, and the sky colour `(0.5, 0.9, 1, 1)`. -/
theorem primary_escape_background_witness :
    (main Real.sqrt
        ⟨Real.tan, fun x => x * Real.pi / 180, fun y x => Complex.arg ⟨x, y⟩, Real.rpow⟩
        (fun _ => (⟨0, 100, 0, 1⟩ : Vec4 ℝ)) ⟨320, 240⟩).casts.length = 1 ∧
    (main Real.sqrt
        ⟨Real.tan, fun x => x * Real.pi / 180, fun y x => Complex.arg ⟨x, y⟩, Real.rpow⟩
        (fun _ => (⟨0, 100, 0, 1⟩ : Vec4 ℝ)) ⟨320, 240⟩).gl_FragColor
      = ⟨0.5, 0.9, 1, 1⟩ := by
  have hdir : primaryDirection Real.sqrt
      ⟨Real.tan, fun x => x * Real.pi / 180, fun y x => Complex.arg ⟨x, y⟩, Real.rpow⟩
      (⟨320, 240⟩ : Vec2 ℝ) = ⟨0, 0, -1⟩ := by
    have hlen : Vec3.length Real.sqrt (⟨0, 0, -1⟩ : Vec3 ℝ) = 1 := by
      rw [unit_iff]; norm_num [Vec3.dot]
    have h0 : (2 * (320 : ℝ) / 640 - 1) = 0 := by norm_num
    have h1 : (2 * (240 : ℝ) / 480 - 1) = 0 := by norm_num
    simp only [primaryDirection, size, h0, h1, zero_mul, Vec3.normalize, hlen, Vec3.divs]
    norm_num
  have hesc : (castRay Real.sqrt (fun _ => (⟨0, 100, 0, 1⟩ : Vec4 ℝ)) ⟨0, 0, 0⟩
      (primaryDirection Real.sqrt
        ⟨Real.tan, fun x => x * Real.pi / 180, fun y x => Complex.arg ⟨x, y⟩, Real.rpow⟩
        (⟨320, 240⟩ : Vec2 ℝ))).color.w = 0 := by
    rw [hdir]
    by_contra hne
    obtain ⟨i, hq⟩ := (scan_pos_iff _ _ _ _).1 ((castRay_alpha_ne_zero_iff _ _ _ _).1 hne)
    have hD := hq.1
    norm_num [discriminant, center_dot_dir, Vec3.dot, Vec4.xyz] at hD
  have h := primary_escape_background Real.sqrt
    ⟨Real.tan, fun x => x * Real.pi / 180, fun y x => Complex.arg ⟨x, y⟩, Real.rpow⟩
    (fun _ => (⟨0, 100, 0, 1⟩ : Vec4 ℝ)) ⟨320, 240⟩ hesc
  refine ⟨by rw [h.1]; rfl, ?_⟩
  rw [h.2.2.1 (le_of_eq (by rw [hdir])), hdir]
  ext <;> norm_num [Vec4.ofVec3, Vec3.muls]

end Claims

section FloorClaims

variable {F : Type} [LinearOrderedField F]

/-- C12: for `direction.y < 0` and `s = (point.y + 1)/(-direction.y)`, the point
`P = point + s*direction` has `P.y = -1`, `floorCoords` is `(P.x, P.z) + (0, 5)`,
the floor point of the shadow test, `vec3(floorCoords - (0,5), -1).xzy`, is `P`
itself, and `s >= 0` whenever `point.y >= -1`. -/
theorem floor_crossing (point direction : Vec3 F) (hy : direction.y < 0) :
    (point + Vec3.smul ((point.y + 1) / (-direction.y)) direction).y = -1 ∧
    floorCoords point direction
      = ⟨(point + Vec3.smul ((point.y + 1) / (-direction.y)) direction).x + 0,
         (point + Vec3.smul ((point.y + 1) / (-direction.y)) direction).z + 5⟩ ∧
    floorPoint (floorCoords point direction)
      = point + Vec3.smul ((point.y + 1) / (-direction.y)) direction ∧
    (point.y ≥ -1 → 0 ≤ (point.y + 1) / (-direction.y)) := by
  have hne : -direction.y ≠ 0 := ne_of_gt (neg_pos.2 hy)
  have hPy : (point + Vec3.smul ((point.y + 1) / (-direction.y)) direction).y = -1 := by
    simp only [Vec3.add_y, Vec3.smul]
    have h1 : (point.y + 1) / (-direction.y) * direction.y = -(point.y + 1) := by
      field_simp
      ring
    rw [h1]; ring
  refine ⟨hPy, ?_, ?_, ?_⟩
  · ext <;> simp only [floorCoords, Vec3.add_x, Vec3.add_z, Vec3.smul] <;> ring
  · ext
    · simp only [floorPoint, floorCoords, Vec3.add_x, Vec3.smul]; ring
    · rw [hPy]; rfl
    · simp only [floorPoint, floorCoords, Vec3.add_z, Vec3.smul]; ring
  · intro hp
    exact div_nonneg (by linarith) (le_of_lt (neg_pos.2 hy))

/-- Witness of C12: the ray from `(1, 3, 2)` in direction `(1, -2, 1)`, which
crosses the floor at `(3, -1, 4)` with `s = 2`. -/
theorem floor_crossing_witness :
    ((⟨1, -2, 1⟩ : Vec3 ℚ).y < 0) ∧
    ((⟨1, 3, 2⟩ : Vec3 ℚ)
        + Vec3.smul (((⟨1, 3, 2⟩ : Vec3 ℚ).y + 1) / (-(⟨1, -2, 1⟩ : Vec3 ℚ).y))
            ⟨1, -2, 1⟩).y = -1 ∧
    floorPoint (floorCoords (⟨1, 3, 2⟩ : Vec3 ℚ) ⟨1, -2, 1⟩) = ⟨3, -1, 4⟩ := by
  have h := floor_crossing (⟨1, 3, 2⟩ : Vec3 ℚ) ⟨1, -2, 1⟩ (by norm_num)
  refine ⟨by norm_num, h.1, ?_⟩
  rw [h.2.2.1]
  ext <;> norm_num [Vec3.smul]

variable [FloorRing F]

/-- C14: the shadow loop darkens the floor colour at most once: if at least one
sphere passes the shadow test the result is the colour with its rgb multiplied
by `0.2` once (however many spheres pass), otherwise the colour is unchanged; in
both cases alpha is unchanged, so for the pattern colour it stays `1`.  This is
the colour `main` uses for a downward direction. -/
theorem shadow_at_most_once (sqrt : F → F) (m : Builtins F) (spheres : Spheres F)
    (fc : Vec2 F) (color : Vec4 F) :
    ((∃ i, shadowTest sqrt (spheres i) fc) →
      shadowLoop sqrt spheres fc color (List.finRange SPHERE_COUNT)
        = Vec4.ofVec3 (Vec3.muls color.xyz 0.2) color.w) ∧
    ((∀ i, ¬ shadowTest sqrt (spheres i) fc) →
      shadowLoop sqrt spheres fc color (List.finRange SPHERE_COUNT) = color) ∧
    (shadowLoop sqrt spheres fc color (List.finRange SPHERE_COUNT)).w = color.w ∧
    (patternColor sqrt m fc).w = 1 ∧
    (shadowLoop sqrt spheres fc (patternColor sqrt m fc) (List.finRange SPHERE_COUNT)).w = 1 ∧
    (∀ point direction : Vec3 F, direction.y < 0 →
      background sqrt m spheres point direction
        = shadowLoop sqrt spheres (floorCoords point direction)
            (patternColor sqrt m (floorCoords point direction))
            (List.finRange SPHERE_COUNT)) := by
  have hp : (patternColor sqrt m fc).w = 1 := by
    simp only [patternColor, Vec4.mix]; ring
  refine ⟨?_, ?_, shadowLoop_alpha sqrt spheres fc color _, hp, ?_, ?_⟩
  · rintro ⟨i, hi⟩
    exact shadowLoop_some sqrt spheres fc color _ ⟨i, List.mem_finRange i, hi⟩
  · intro h
    exact shadowLoop_none sqrt spheres fc color _ (fun i _ => h i)
  · rw [shadowLoop_alpha, hp]
  · intro point direction hy
    rw [background, if_neg (not_le.2 hy)]

/-- C17 (counterexample): for the ray from `(0, 0, -5)` straight down,
`floorCoords` after the `(0,5)` offset is `(0,0)` and the radial coordinate
`r = length(floorCoords)` is `0`, not `5`. -/
theorem floor_scenario_radius_not_five :
    floorCoords (⟨0, 0, -5⟩ : Vec3 ℝ) ⟨0, -1, 0⟩ = ⟨0, 0⟩ ∧
    Vec2.length Real.sqrt (floorCoords (⟨0, 0, -5⟩ : Vec3 ℝ) ⟨0, -1, 0⟩) = 0 ∧
    Vec2.length Real.sqrt (floorCoords (⟨0, 0, -5⟩ : Vec3 ℝ) ⟨0, -1, 0⟩) ≠ 5 := by
  have hfc : floorCoords (⟨0, 0, -5⟩ : Vec3 ℝ) ⟨0, -1, 0⟩ = ⟨0, 0⟩ := by
    ext <;> norm_num [floorCoords]
  have hr : Vec2.length Real.sqrt (floorCoords (⟨0, 0, -5⟩ : Vec3 ℝ) ⟨0, -1, 0⟩) = 0 := by
    rw [hfc]; simp [Vec2.length]
  refine ⟨hfc, hr, ?_⟩
  rw [hr]; norm_num

/-- C17 (amended): when `point.xz = (0,-5)` and the ray goes straight down
(`direction.xz = (0,0)`, `direction.y < 0`), `floorCoords` after the `(0,5)`
offset is `(0,0)` and the radial coordinate `r = length(floorCoords)` used by
the pattern formula is `0`; `5` is the length of the coordinates before the
offset, `point.xz`, the ray crossing the floor at `(0, -1, -5)`. -/
theorem floor_scenario_radius (point direction : Vec3 ℝ) (hpx : point.x = 0)
    (hpz : point.z = -5) (hdx : direction.x = 0) (hdz : direction.z = 0)
    (hdy : direction.y < 0) :
    floorCoords point direction = ⟨0, 0⟩ ∧
    Vec2.length Real.sqrt (floorCoords point direction) = 0 ∧
    Vec2.length Real.sqrt ⟨point.x, point.z⟩ = 5 ∧
    point + Vec3.smul ((point.y + 1) / (-direction.y)) direction = ⟨0, -1, -5⟩ := by
  have hfc : floorCoords point direction = ⟨0, 0⟩ := by
    ext <;> simp [floorCoords, hpx, hpz, hdx, hdz]
  have hne : -direction.y ≠ 0 := ne_of_gt (neg_pos.2 hdy)
  refine ⟨hfc, by rw [hfc]; simp [Vec2.length], ?_, ?_⟩
  · simp only [Vec2.length, hpx, hpz]
    rw [show (0 : ℝ) * 0 + -5 * -5 = 5 * 5 by norm_num]
    exact Real.sqrt_mul_self (by norm_num)
  · ext
    · simp [Vec3.smul, hpx, hdx]
    · simp only [Vec3.add_y, Vec3.smul]
      field_simp
      ring
    · simp [Vec3.smul, hpz, hdz]

/-- Witness of C17 (amended): the ray from `(0, 2, -5)` in direction
`(0, -1, 0)`. -/
theorem floor_scenario_radius_witness :
    Vec2.length Real.sqrt (floorCoords (⟨0, 2, -5⟩ : Vec3 ℝ) ⟨0, -1, 0⟩) = 0 :=
  (floor_scenario_radius ⟨0, 2, -5⟩ ⟨0, -1, 0⟩ rfl rfl rfl rfl (by norm_num)).2.1

/-- C19: in `main` the running alpha found by call number `k` of
`accumulate_color` (counted from `0`), that is the alpha of `gl_FragColor` after
`k` composited bounces, is `1 - 0.15^k`; the bounce loop makes at most 5 such
calls and leaves alpha `1 - 0.15^n` after `n` of them; and after the final
background composite the alpha of `gl_FragColor` is `1`. -/
theorem running_alpha_closed_form (sqrt : F → F) (m : Builtins F) (spheres : Spheres F)
    (fragCoord : Vec2 F) :
    (bounceLoop sqrt spheres 5 (initState sqrt m fragCoord)).calls.length ≤ 5 ∧
    (bounceLoop sqrt spheres 5 (initState sqrt m fragCoord)).gl_FragColor.w
      = 1 - 0.15 ^ (bounceLoop sqrt spheres 5 (initState sqrt m fragCoord)).calls.length ∧
    (∀ (k : Nat) (c : Vec4 F × Vec4 F),
      (main sqrt m spheres fragCoord).calls[k]? = some c → c.2.w = 1 - 0.15 ^ k) ∧
    (main sqrt m spheres fragCoord).calls.length
      = (bounceLoop sqrt spheres 5 (initState sqrt m fragCoord)).calls.length + 1 ∧
    (main sqrt m spheres fragCoord).gl_FragColor.w = 1 := by
  obtain ⟨ha, hcalls⟩ :=
    bounceLoop_alphaInv sqrt spheres 5 _ (initState_alphaInv sqrt m fragCoord)
  have hlen := bounceLoop_calls_length sqrt spheres 5 (initState sqrt m fragCoord)
  refine ⟨by simpa [initState] using hlen, ha, ?_, by rw [main_calls]; simp, ?_⟩
  · intro k c hk
    rw [main_calls] at hk
    by_cases hlt : k < (bounceLoop sqrt spheres 5 (initState sqrt m fragCoord)).calls.length
    · rw [List.getElem?_append_left hlt] at hk
      exact (hcalls k c hk).1
    · have hge := Nat.le_of_not_lt hlt
      rw [List.getElem?_append_right hge] at hk
      have hk0 : k - (bounceLoop sqrt spheres 5 (initState sqrt m fragCoord)).calls.length
          = 0 := by
        by_contra hne
        obtain ⟨j, hj⟩ := Nat.exists_eq_succ_of_ne_zero hne
        rw [hj] at hk
        simp at hk
      rw [hk0] at hk
      have hc : c = (background sqrt m spheres
          (bounceLoop sqrt spheres 5 (initState sqrt m fragCoord)).point
          (bounceLoop sqrt spheres 5 (initState sqrt m fragCoord)).direction,
          (bounceLoop sqrt spheres 5 (initState sqrt m fragCoord)).gl_FragColor) := by
        simpa using hk.symm
      have hkl : k = (bounceLoop sqrt spheres 5 (initState sqrt m fragCoord)).calls.length := by
        omega
      rw [hc, hkl]
      exact ha
  · have hmain : (main sqrt m spheres fragCoord).gl_FragColor
        = accumulate_color
            (background sqrt m spheres
              (bounceLoop sqrt spheres 5 (initState sqrt m fragCoord)).point
              (bounceLoop sqrt spheres 5 (initState sqrt m fragCoord)).direction)
            (bounceLoop sqrt spheres 5 (initState sqrt m fragCoord)).gl_FragColor := rfl
    rw [hmain]
    simp only [accumulate_color, Vec4.ofVec3]
    rw [background_alpha]
    ring

end FloorClaims

section RealClaims

/-- C11: over the reals, for positive radii, every direction `main` hands to
`castRay` and to the background evaluator has length `1` (for every fragment
coordinate, in particular those of `[0,640] x [0,480]`): the primary direction
is a unit vector with strictly negative `z`, `castRay` returns a unit
continuation direction whenever its input direction is a unit vector, so every
ray of the chain of continuation rays and the direction left by the bounce loop
are unit vectors, and every logged `castRay` evaluation was made on one. -/
theorem directions_unit (m : Builtins ℝ) (spheres : Spheres ℝ) (fragCoord : Vec2 ℝ)
    (hr : ∀ i, 0 < (spheres i).w) :
    Vec3.length Real.sqrt (primaryDirection Real.sqrt m fragCoord) = 1 ∧
    (primaryDirection Real.sqrt m fragCoord).z < 0 ∧
    (∀ point direction : Vec3 ℝ, Vec3.length Real.sqrt direction = 1 →
      Vec3.length Real.sqrt
        (castRay Real.sqrt spheres point direction).next_direction = 1) ∧
    (∀ k, Vec3.length Real.sqrt
      (nthRay Real.sqrt spheres ⟨0, 0, 0⟩ (primaryDirection Real.sqrt m fragCoord) k).2 = 1) ∧
    Vec3.length Real.sqrt (main Real.sqrt m spheres fragCoord).direction = 1 ∧
    (∀ c ∈ (main Real.sqrt m spheres fragCoord).casts,
      ∃ p d, Vec3.length Real.sqrt d = 1 ∧ c = castRay Real.sqrt spheres p d) := by
  have hp := primaryDirection_unit m fragCoord
  have hinit : DirInv Real.sqrt spheres (initState Real.sqrt m fragCoord) := by
    refine ⟨hp.1, ?_⟩
    intro c hc
    simp [initState] at hc
  have hloop := bounceLoop_dirInv spheres hr 5 _ hinit
  exact ⟨hp.1, hp.2,
    fun point direction hd => castRay_next_direction_unit spheres point direction hr hd,
    fun k => nthRay_unit spheres hr _ _ hp.1 k, hloop.1, hloop.2⟩

/-- Witness of C11: the centre fragment `(320, 240)` and five unit spheres at
the origin. -/
theorem directions_unit_witness :
    Vec3.length Real.sqrt
      (main Real.sqrt
        ⟨Real.tan, fun x => x * Real.pi / 180, fun y x => Complex.arg ⟨x, y⟩, Real.rpow⟩
        (fun _ => (⟨0, 0, 0, 1⟩ : Vec4 ℝ)) ⟨320, 240⟩).direction = 1 :=
  (directions_unit
    ⟨Real.tan, fun x => x * Real.pi / 180, fun y x => Complex.arg ⟨x, y⟩, Real.rpow⟩
    (fun _ => (⟨0, 0, 0, 1⟩ : Vec4 ℝ)) ⟨320, 240⟩ (fun _ => by norm_num)).2.2.2.2.1

/-- C13: over the reals, with `pow` the real power, for every floor coordinate
pair and whatever `atan` returns, the pattern intensity
`0.5 + (pow(16*r_f*(1-r_f)*angle_f*(1-angle_f), 0.3) - 0.5)*10/(10+r)` lies in
`[0,1]`, so every component of the unshadowed floor colour lies between the
corresponding components of `(0.2,0.05,0,1)` and `(0.8,0.2,0.15,1)`; at
`floorCoords = (0,0)` the intensity is `0`. -/
theorem pattern_value_in_unit_interval (tan radians : ℝ → ℝ) (atan : ℝ → ℝ → ℝ)
    (fc : Vec2 ℝ) :
    (0 ≤ patternValue Real.sqrt ⟨tan, radians, atan, Real.rpow⟩ fc ∧
      patternValue Real.sqrt ⟨tan, radians, atan, Real.rpow⟩ fc ≤ 1) ∧
    (0.2 ≤ (patternColor Real.sqrt ⟨tan, radians, atan, Real.rpow⟩ fc).x ∧
      (patternColor Real.sqrt ⟨tan, radians, atan, Real.rpow⟩ fc).x ≤ 0.8) ∧
    (0.05 ≤ (patternColor Real.sqrt ⟨tan, radians, atan, Real.rpow⟩ fc).y ∧
      (patternColor Real.sqrt ⟨tan, radians, atan, Real.rpow⟩ fc).y ≤ 0.2) ∧
    (0 ≤ (patternColor Real.sqrt ⟨tan, radians, atan, Real.rpow⟩ fc).z ∧
      (patternColor Real.sqrt ⟨tan, radians, atan, Real.rpow⟩ fc).z ≤ 0.15) ∧
    (patternColor Real.sqrt ⟨tan, radians, atan, Real.rpow⟩ fc).w = 1 ∧
    patternValue Real.sqrt ⟨tan, radians, atan, Real.rpow⟩ ⟨0, 0⟩ = 0 := by
  have hv := patternValue_bounds tan radians atan fc
  refine ⟨hv, ?_, ?_, ?_, ?_, ?_⟩
  · simp only [patternColor, Vec4.mix]
    constructor <;> nlinarith [hv.1, hv.2]
  · simp only [patternColor, Vec4.mix]
    constructor <;> nlinarith [hv.1, hv.2]
  · simp only [patternColor, Vec4.mix]
    constructor <;> nlinarith [hv.1, hv.2]
  · simp only [patternColor, Vec4.mix]
    ring
  · have hr : Vec2.length Real.sqrt (⟨0, 0⟩ : Vec2 ℝ) = 0 := by simp [Vec2.length]
    have hf : fract (0 : ℝ) = 0 := by simp [fract]
    simp only [patternValue, hr, hf, Real.rpow_eq_pow]
    rw [show (16 : ℝ) * 0 * (1 - 0)
        * fract (ceil (2 * M_PI * ceil 0) * (atan 0 0 + M_PI) / (2 * M_PI))
        * (1 - fract (ceil (2 * M_PI * ceil 0) * (atan 0 0 + M_PI) / (2 * M_PI))) = 0 by
      ring]
    rw [Real.zero_rpow (by norm_num)]
    norm_num

/-- C15: over the reals, for every clock value and every index `i` of `0..4` the
per-frame update sets `radius_i = 0.2 + 0.8*exp(-i/5)`; it lies in `(0.2, 1]`, so
it is strictly positive, it is strictly decreasing in `i`, and it depends
neither on the clock nor on `sinf`. -/
theorem frame_radius_positive (sinf : ℝ → ℝ) (ticks : Nat) (i : Fin SPHERE_COUNT) :
    (frameSpheres sinf Real.exp ticks i).w
      = 0.2 + 0.8 * Real.exp (-((i : Nat) : ℝ) / 5) ∧
    0 < (frameSpheres sinf Real.exp ticks i).w ∧
    0.2 < (frameSpheres sinf Real.exp ticks i).w ∧
    (frameSpheres sinf Real.exp ticks i).w ≤ 1 ∧
    (∀ j : Fin SPHERE_COUNT, i < j →
      (frameSpheres sinf Real.exp ticks j).w < (frameSpheres sinf Real.exp ticks i).w) ∧
    (∀ (sinf2 : ℝ → ℝ) (ticks2 : Nat),
      (frameSpheres sinf2 Real.exp ticks2 i).w = (frameSpheres sinf Real.exp ticks i).w) := by
  have hexp0 : 0 < Real.exp (-((i : Nat) : ℝ) / 5) := Real.exp_pos _
  have hexp1 : Real.exp (-((i : Nat) : ℝ) / 5) ≤ 1 := by
    rw [Real.exp_le_one_iff]
    have : (0 : ℝ) ≤ ((i : Nat) : ℝ) := Nat.cast_nonneg _
    linarith
  refine ⟨rfl, ?_, ?_, ?_, ?_, fun _ _ => rfl⟩
  · simp only [frameSpheres]; linarith
  · simp only [frameSpheres]; linarith
  · simp only [frameSpheres]; linarith
  · intro j hij
    simp only [frameSpheres]
    have hlt : ((i : Nat) : ℝ) < ((j : Nat) : ℝ) := Nat.cast_lt.2 hij
    have : Real.exp (-((j : Nat) : ℝ) / 5) < Real.exp (-((i : Nat) : ℝ) / 5) := by
      rw [Real.exp_lt_exp]
      linarith
    linarith

/-- C16: on a hit `castRay` returns rgb
`(0.8, 0.5, 0.9) * max(0, dot(normal, lightDirection))`, where `normal` is
`(next_point - center)/radius` for the selected sphere and
`lightDirection = normalize((2,4,1)) = (2,4,1)/sqrt(21)`, and alpha `0.85`
whatever the geometry; hence, for a unit direction and positive radii, each rgb
component lies in `[0, 0.9]`, and rgb is `(0,0,0)` whenever
`dot(normal, lightDirection) <= 0`. -/
theorem hit_shading :
    (lightDirection Real.sqrt = Vec3.normalize Real.sqrt ⟨2, 4, 1⟩ ∧
      lightDirection Real.sqrt
        = ⟨2 / Real.sqrt 21, 4 / Real.sqrt 21, 1 / Real.sqrt 21⟩) ∧
    (∀ (spheres : Spheres ℝ) (point direction : Vec3 ℝ),
      (castRay Real.sqrt spheres point direction).color.w ≠ 0 →
      (castRay Real.sqrt spheres point direction).color
        = ⟨0.8 * max 0 (Vec3.dot
              (Vec3.divs
                ((castRay Real.sqrt spheres point direction).next_point
                  - (spheres (scan Real.sqrt spheres point direction).2).xyz)
                (spheres (scan Real.sqrt spheres point direction).2).w)
              (Vec3.normalize Real.sqrt ⟨2, 4, 1⟩)),
           0.5 * max 0 (Vec3.dot
              (Vec3.divs
                ((castRay Real.sqrt spheres point direction).next_point
                  - (spheres (scan Real.sqrt spheres point direction).2).xyz)
                (spheres (scan Real.sqrt spheres point direction).2).w)
              (Vec3.normalize Real.sqrt ⟨2, 4, 1⟩)),
           0.9 * max 0 (Vec3.dot
              (Vec3.divs
                ((castRay Real.sqrt spheres point direction).next_point
                  - (spheres (scan Real.sqrt spheres point direction).2).xyz)
                (spheres (scan Real.sqrt spheres point direction).2).w)
              (Vec3.normalize Real.sqrt ⟨2, 4, 1⟩)),
           0.85⟩) ∧
    (∀ (spheres : Spheres ℝ) (point direction : Vec3 ℝ),
      (∀ i, 0 < (spheres i).w) → Vec3.length Real.sqrt direction = 1 →
      (castRay Real.sqrt spheres point direction).color.w ≠ 0 →
      (0 ≤ (castRay Real.sqrt spheres point direction).color.x ∧
        (castRay Real.sqrt spheres point direction).color.x ≤ 0.9) ∧
      (0 ≤ (castRay Real.sqrt spheres point direction).color.y ∧
        (castRay Real.sqrt spheres point direction).color.y ≤ 0.9) ∧
      (0 ≤ (castRay Real.sqrt spheres point direction).color.z ∧
        (castRay Real.sqrt spheres point direction).color.z ≤ 0.9) ∧
      (Vec3.dot
          (Vec3.divs
            ((castRay Real.sqrt spheres point direction).next_point
              - (spheres (scan Real.sqrt spheres point direction).2).xyz)
            (spheres (scan Real.sqrt spheres point direction).2).w)
          (Vec3.normalize Real.sqrt ⟨2, 4, 1⟩) ≤ 0 →
        (castRay Real.sqrt spheres point direction).color
          = ⟨0, 0, 0, 0.85⟩)) := by
  refine ⟨⟨rfl, ?_⟩, ?_, ?_⟩
  · have h21 : Vec3.dot (⟨2, 4, 1⟩ : Vec3 ℝ) ⟨2, 4, 1⟩ = 21 := by
      norm_num [Vec3.dot]
    simp only [lightDirection, Vec3.normalize, Vec3.length, Vec3.divs, h21]
  · intro spheres point direction hhit
    have hpos := (castRay_alpha_ne_zero_iff _ _ _ _).1 hhit
    rw [castRay_of_pos Real.sqrt spheres point direction hpos]
    rfl
  · intro spheres point direction hr hd hhit
    have hd1 : Vec3.dot direction direction = 1 := (unit_iff direction).1 hd
    have hpos := (castRay_alpha_ne_zero_iff _ _ _ _).1 hhit
    have hon := hit_onSurface spheres point direction hr hd1 hpos
    have hn := (unit_iff _).1 (hitNormal_length _ _ (hr _) hon)
    have hle := dot_le_one _ _ hn ((unit_iff _).1 lightDirection_unit)
    rw [castRay_of_pos Real.sqrt spheres point direction hpos]
    simp only [Vec4.ofVec3, Vec3.muls]
    have hm0 : 0 ≤ max 0 (Vec3.dot
        (hitNormal (spheres (scan Real.sqrt spheres point direction).2)
          (point + Vec3.smul (scan Real.sqrt spheres point direction).1 direction))
        (lightDirection Real.sqrt)) := le_max_left _ _
    have hm1 : max 0 (Vec3.dot
        (hitNormal (spheres (scan Real.sqrt spheres point direction).2)
          (point + Vec3.smul (scan Real.sqrt spheres point direction).1 direction))
        (lightDirection Real.sqrt)) ≤ 1 := max_le zero_le_one hle
    refine ⟨⟨?_, ?_⟩, ⟨?_, ?_⟩, ⟨?_, ?_⟩, ?_⟩
    · nlinarith
    · nlinarith
    · nlinarith
    · nlinarith
    · nlinarith
    · nlinarith
    · intro hneg
      have hneg2 : Vec3.dot
          (hitNormal (spheres (scan Real.sqrt spheres point direction).2)
            (point + Vec3.smul (scan Real.sqrt spheres point direction).1 direction))
          (lightDirection Real.sqrt) ≤ 0 := hneg
      rw [max_eq_left hneg2]
      ext <;> simp

/-- Witness of C16: the ray from `(0,0,5)` towards `(0,0,-1)` and five unit
spheres at the origin; the hit point is `(0,0,1)`, the normal `(0,0,1)` and the
colour `((0.8, 0.5, 0.9)/sqrt(21), 0.85)`. -/
theorem hit_shading_witness :
    (castRay Real.sqrt (fun _ => (⟨0, 0, 0, 1⟩ : Vec4 ℝ)) ⟨0, 0, 5⟩ ⟨0, 0, -1⟩).color
      = ⟨0.8 * (1 / Real.sqrt 21), 0.5 * (1 / Real.sqrt 21), 0.9 * (1 / Real.sqrt 21),
         0.85⟩ ∧
    0 ≤ (castRay Real.sqrt (fun _ => (⟨0, 0, 0, 1⟩ : Vec4 ℝ)) ⟨0, 0, 5⟩ ⟨0, 0, -1⟩).color.x ∧
    (castRay Real.sqrt (fun _ => (⟨0, 0, 0, 1⟩ : Vec4 ℝ)) ⟨0, 0, 5⟩ ⟨0, 0, -1⟩).color.x
      ≤ 0.9 := by
  have hunit : Vec3.length Real.sqrt (⟨0, 0, -1⟩ : Vec3 ℝ) = 1 := by
    rw [unit_iff]; norm_num [Vec3.dot]
  have hhit : (castRay Real.sqrt (fun _ => (⟨0, 0, 0, 1⟩ : Vec4 ℝ))
      ⟨0, 0, 5⟩ ⟨0, 0, -1⟩).color.w ≠ 0 := by
    rw [castRay_alpha_ne_zero_iff, scan_pos_iff]
    exact ⟨0, scenario_this_dist.1⟩
  have hB := hit_shading.2.2 (fun _ => (⟨0, 0, 0, 1⟩ : Vec4 ℝ)) ⟨0, 0, 5⟩ ⟨0, 0, -1⟩
    (fun _ => by norm_num) hunit hhit
  have hdist := (scenario_scan (fun _ => (⟨0, 0, 0, 1⟩ : Vec4 ℝ)) ⟨0, rfl⟩
    (fun _ => Or.inl rfl)).1
  have hnp : (castRay Real.sqrt (fun _ => (⟨0, 0, 0, 1⟩ : Vec4 ℝ))
      ⟨0, 0, 5⟩ ⟨0, 0, -1⟩).next_point = ⟨0, 0, 1⟩ := by
    rw [castRay_of_pos Real.sqrt _ _ _ ((castRay_alpha_ne_zero_iff _ _ _ _).1 hhit), hdist]
    ext <;> norm_num [Vec3.smul]
  have hdot : Vec3.dot
      (Vec3.divs ((⟨0, 0, 1⟩ : Vec3 ℝ) - (⟨0, 0, 0, 1⟩ : Vec4 ℝ).xyz) (⟨0, 0, 0, 1⟩ : Vec4 ℝ).w)
      (Vec3.normalize Real.sqrt ⟨2, 4, 1⟩) = 1 / Real.sqrt 21 := by
    have h21 : Vec3.dot (⟨2, 4, 1⟩ : Vec3 ℝ) ⟨2, 4, 1⟩ = 21 := by
      norm_num [Vec3.dot]
    simp only [Vec3.normalize, Vec3.length, h21]
    simp [Vec3.dot, Vec3.divs, Vec4.xyz]
  have hmax : max 0 (1 / Real.sqrt 21) = 1 / Real.sqrt 21 :=
    max_eq_right (by positivity)
  have hA := hit_shading.2.1 (fun _ => (⟨0, 0, 0, 1⟩ : Vec4 ℝ)) ⟨0, 0, 5⟩ ⟨0, 0, -1⟩ hhit
  rw [hnp] at hA
  simp only [hdot, hmax] at hA
  exact ⟨hA, hB.1.1, hB.1.2⟩

/-- C18: over the reals, a sphere whose surface passes through the ray origin
(`|center - point| = radius`) does not qualify, whatever the direction: its near
root is `b - |b| <= 0`.  In particular, after a hit on sphere `k` with a unit
direction and positive radii, sphere `k` does not qualify for the continuation
ray, and if the next `castRay` evaluation reports a hit it selects a sphere
other than `k`. -/
theorem no_self_hit :
    (∀ (s : Vec4 ℝ) (point direction : Vec3 ℝ),
      Vec3.length Real.sqrt (s.xyz - point) = s.w →
      this_dist Real.sqrt s point direction
        = center_dot_dir s point direction - |center_dot_dir s point direction| ∧
      this_dist Real.sqrt s point direction ≤ 0 ∧
      ¬ qualifies Real.sqrt s point direction) ∧
    (∀ (spheres : Spheres ℝ) (point direction : Vec3 ℝ),
      (∀ i, 0 < (spheres i).w) → Vec3.length Real.sqrt direction = 1 →
      (castRay Real.sqrt spheres point direction).color.w ≠ 0 →
      ¬ qualifies Real.sqrt (spheres (scan Real.sqrt spheres point direction).2)
          (castRay Real.sqrt spheres point direction).next_point
          (castRay Real.sqrt spheres point direction).next_direction ∧
      ((castRay Real.sqrt spheres
          (castRay Real.sqrt spheres point direction).next_point
          (castRay Real.sqrt spheres point direction).next_direction).color.w ≠ 0 →
        (scan Real.sqrt spheres
          (castRay Real.sqrt spheres point direction).next_point
          (castRay Real.sqrt spheres point direction).next_direction).2
          ≠ (scan Real.sqrt spheres point direction).2)) := by
  constructor
  · intro s point direction h
    obtain ⟨ht, hq⟩ := origin_on_sphere s point direction h
    refine ⟨ht, ?_, hq⟩
    rw [ht]
    have := le_abs_self (center_dot_dir s point direction)
    linarith
  · intro spheres point direction hr hd hhit
    have hd1 : Vec3.dot direction direction = 1 := (unit_iff direction).1 hd
    have hpos := (castRay_alpha_ne_zero_iff _ _ _ _).1 hhit
    have hon := hit_onSurface spheres point direction hr hd1 hpos
    have hnq : ¬ qualifies Real.sqrt (spheres (scan Real.sqrt spheres point direction).2)
        (castRay Real.sqrt spheres point direction).next_point
        (castRay Real.sqrt spheres point direction).next_direction := by
      apply (origin_on_sphere _ _ _ _).2
      rw [length_sub_comm, castRay_of_pos Real.sqrt spheres point direction hpos]
      exact hon
    refine ⟨hnq, ?_⟩
    intro hnext heq
    have hpos2 := (castRay_alpha_ne_zero_iff _ _ _ _).1 hnext
    obtain ⟨_, hq, _, _⟩ := scan_of_qualifies Real.sqrt spheres _ _
      ((scan_pos_iff _ _ _ _).1 hpos2)
    rw [heq] at hq
    exact hnq hq

/-- Witness of C18: the unit sphere at the origin seen from the point `(0,0,1)`
of its surface in direction `(0,0,1)`, and the bounce of the ray from `(0,0,5)`
towards `(0,0,-1)` off five unit spheres at the origin. -/
theorem no_self_hit_witness :
    ¬ qualifies Real.sqrt (⟨0, 0, 0, 1⟩ : Vec4 ℝ) ⟨0, 0, 1⟩ ⟨0, 0, 1⟩ ∧
    ¬ qualifies Real.sqrt
        ((fun _ => (⟨0, 0, 0, 1⟩ : Vec4 ℝ))
          (scan Real.sqrt (fun _ => (⟨0, 0, 0, 1⟩ : Vec4 ℝ)) ⟨0, 0, 5⟩ ⟨0, 0, -1⟩).2)
        (castRay Real.sqrt (fun _ => (⟨0, 0, 0, 1⟩ : Vec4 ℝ)) ⟨0, 0, 5⟩ ⟨0, 0, -1⟩).next_point
        (castRay Real.sqrt (fun _ => (⟨0, 0, 0, 1⟩ : Vec4 ℝ))
          ⟨0, 0, 5⟩ ⟨0, 0, -1⟩).next_direction := by
  have hunit : Vec3.length Real.sqrt (⟨0, 0, -1⟩ : Vec3 ℝ) = 1 := by
    rw [unit_iff]; norm_num [Vec3.dot]
  have hhit : (castRay Real.sqrt (fun _ => (⟨0, 0, 0, 1⟩ : Vec4 ℝ))
      ⟨0, 0, 5⟩ ⟨0, 0, -1⟩).color.w ≠ 0 := by
    rw [castRay_alpha_ne_zero_iff, scan_pos_iff]
    exact ⟨0, scenario_this_dist.1⟩
  have hsurf : Vec3.length Real.sqrt
      (Vec4.xyz (⟨0, 0, 0, 1⟩ : Vec4 ℝ) - (⟨0, 0, 1⟩ : Vec3 ℝ)) = (⟨0, 0, 0, 1⟩ : Vec4 ℝ).w := by
    rw [unit_iff]; norm_num [Vec3.dot, Vec4.xyz]
  exact ⟨(no_self_hit.1 ⟨0, 0, 0, 1⟩ ⟨0, 0, 1⟩ ⟨0, 0, 1⟩ hsurf).2.2,
    (no_self_hit.2 (fun _ => (⟨0, 0, 0, 1⟩ : Vec4 ℝ)) ⟨0, 0, 5⟩ ⟨0, 0, -1⟩
      (fun _ => by norm_num) hunit hhit).1⟩

/-- C20: over the reals, for a sphere of positive radius and a unit vector `L`,
the shadow test `|delta - dot(delta, L)*L| < radius` with
`delta = center - point` holds iff the discriminant of `castRay` for the ray from
`point` along `L`, `dot(delta, L)^2 + radius^2 - dot(delta, delta)`, is strictly
positive; the shader's shadow test is the case `point = floorPoint`,
`L = lightDirection`, which is a unit vector. -/
theorem shadow_test_iff_discriminant (s : Vec4 ℝ) (hr : 0 < s.w) :
    (∀ point L : Vec3 ℝ,
      discriminant s point L
        = Vec3.dot (s.xyz - point) L ^ 2 + s.w ^ 2
            - Vec3.dot (s.xyz - point) (s.xyz - point)) ∧
    (∀ point L : Vec3 ℝ, Vec3.length Real.sqrt L = 1 →
      (Vec3.length Real.sqrt
          ((s.xyz - point) - Vec3.smul (Vec3.dot (s.xyz - point) L) L) < s.w
        ↔ 0 < discriminant s point L)) ∧
    Vec3.length Real.sqrt (lightDirection Real.sqrt) = 1 ∧
    (∀ fc : Vec2 ℝ,
      shadowTest Real.sqrt s fc
        ↔ 0 < discriminant s (floorPoint fc) (lightDirection Real.sqrt)) := by
  have hgen : ∀ point L : Vec3 ℝ, Vec3.length Real.sqrt L = 1 →
      (Vec3.length Real.sqrt
          ((s.xyz - point) - Vec3.smul (Vec3.dot (s.xyz - point) L) L) < s.w
        ↔ 0 < discriminant s point L) := by
    intro point L hL
    rw [shadow_iff_discriminant _ L s.w hr ((unit_iff L).1 hL)]
    rfl
  refine ⟨?_, hgen, lightDirection_unit, ?_⟩
  · intro point L
    simp only [discriminant, center_dot_dir]
    ring
  · intro fc
    exact hgen (floorPoint fc) (lightDirection Real.sqrt) lightDirection_unit

/-- Witness of C20: the unit sphere at the origin and the floor point below
`floorCoords = (0, 5)`. -/
theorem shadow_test_iff_discriminant_witness :
    shadowTest Real.sqrt (⟨0, 0, 0, 1⟩ : Vec4 ℝ) ⟨0, 5⟩
      ↔ 0 < discriminant (⟨0, 0, 0, 1⟩ : Vec4 ℝ) (floorPoint ⟨0, 5⟩)
          (lightDirection Real.sqrt) :=
  (shadow_test_iff_discriminant ⟨0, 0, 0, 1⟩ (by norm_num)).2.2.2 ⟨0, 5⟩

end RealClaims

end Trace
